import Mathlib

/-!
Verification of the DataCollections web-harvest and entity-resolution pipeline.

This file gives a shallow embedding, in Lean 4, of the core algorithms of the
repository: the competitive-funding classifier, the fuzzy VC-name resolver,
the free-text period parser, the pagination controller, the per-researcher
crawl loop and the summary aggregator, together with theorems settling the
specification claims about them.  Each definition is translated from the
Python source (file and line references are given in the doc comments);
network fetches are modelled by `Except`-valued oracles passed explicitly.
-/

/-! ## Python-style character and substring helpers -/

/-- Characters matched by Python's `\s` (and stripped by `str.strip()`) on
`str` patterns: ASCII whitespace plus the Unicode space characters. -/
def isPySpace (c : Char) : Bool :=
  c.toNat == 32 || c.toNat == 9 || c.toNat == 10 || c.toNat == 13 ||
  c.toNat == 11 || c.toNat == 12 ||
  c.toNat == 0x1c || c.toNat == 0x1d || c.toNat == 0x1e || c.toNat == 0x1f ||
  c.toNat == 0x85 || c.toNat == 0xa0 || c.toNat == 0x1680 ||
  (0x2000 ≤ c.toNat && c.toNat ≤ 0x200a) ||
  c.toNat == 0x2028 || c.toNat == 0x2029 || c.toNat == 0x202f ||
  c.toNat == 0x205f || c.toNat == 0x3000

/-- Python's substring test `needle in hay` on lists of characters. -/
def containsSub (needle : List Char) : List Char → Bool
  | [] => needle.isEmpty
  | c :: cs => needle.isPrefixOf (c :: cs) || containsSub needle cs

/-- Python's substring test `needle in hay` on strings. -/
def pyIn (needle hay : String) : Bool := containsSub needle.data hay.data

/-- Python's `str.lower()` (ASCII case folding, which is all the source's
inputs exercise). -/
def strLower (s : String) : String := String.mk (s.data.map Char.toLower)

theorem isPrefixOf_iff_exists {n h : List Char} :
    n.isPrefixOf h = true ↔ ∃ r, h = n ++ r := by
  rw [List.isPrefixOf_iff_prefix]
  exact ⟨fun ⟨t, ht⟩ => ⟨t, ht.symm⟩, fun ⟨t, ht⟩ => ⟨t, ht.symm⟩⟩

theorem containsSub_iff {n h : List Char} :
    containsSub n h = true ↔ ∃ l r, h = l ++ n ++ r := by
  induction h with
  | nil =>
    simp only [containsSub, List.isEmpty_iff]
    constructor
    · rintro rfl; exact ⟨[], [], rfl⟩
    · rintro ⟨l, r, h⟩
      rcases List.append_eq_nil.mp (List.append_eq_nil.mp h.symm).1 with ⟨-, h2⟩
      exact h2
  | cons c cs ih =>
    simp only [containsSub, Bool.or_eq_true, ih, isPrefixOf_iff_exists]
    constructor
    · rintro (⟨r, hr⟩ | ⟨l, r, hlr⟩)
      · exact ⟨[], r, by simpa using hr⟩
      · exact ⟨c :: l, r, by simp [hlr]⟩
    · rintro ⟨l, r, hlr⟩
      cases l with
      | nil => exact Or.inl ⟨r, by simpa using hlr⟩
      | cons x xs =>
        right
        refine ⟨xs, r, ?_⟩
        simpa using congrArg List.tail hlr

theorem pyIn_iff {n h : String} :
    pyIn n h = true ↔ ∃ l r, h.data = l ++ n.data ++ r := containsSub_iff

/-! ## C1 / C8: the competitive-funding classifier

Source: `researchmap_integrated_scraper.py`,
`ResearchMapIntegratedScraper.is_competitive_funding_by_html_structure`
(lines 864–925).  The three allow-lists below are the method's own local
lists. -/

def competitive_institutions : List String :=
  ["日本学術振興会", "JST", "国立研究開発法人科学技術振興機構", "文部科学省",
   "厚生労働省", "経済産業省", "国立研究開発法人新エネルギー・産業技術総合開発機構",
   "NEDO", "独立行政法人新エネルギー・産業技術総合開発機構"]

def competitive_project_types : List String :=
  ["科学研究費助成事業", "科学研究費", "科学研究費補助金", "基盤研究", "若手研究",
   "萌芽研究", "挑戦的研究", "特別推進研究", "新学術領域研究", "特別研究員",
   "挑戦的萌芽研究", "地熱発電技術研究開発", "新エネルギーベンチャー技術革新事業"]

def competitive_indicators : List String :=
  ["科研費", "科学研究費", "基盤研究", "若手研究", "萌芽研究", "挑戦的研究",
   "特別推進研究", "新学術領域研究", "特別研究員", "助成事業", "補助金",
   "挑戦的萌芽研究", "地熱発電技術研究開発", "新エネルギーベンチャー技術革新事業"]

/-- `is_competitive_funding_by_html_structure(funding_system, institution,
project_type)`: institution gate (exact membership), project-type gate
(substring), then keyword gate over the lowercased funding text; `None` /
empty-string arguments are falsy and skip their gate. -/
def is_competitive_funding_by_html_structure
    (funding_system institution project_type : String) : Bool :=
  if institution != "" && competitive_institutions.contains institution then
    true
  else if project_type != "" &&
      competitive_project_types.any (fun t => pyIn t project_type) then
    true
  else if funding_system != "" &&
      competitive_indicators.any
        (fun ind => pyIn ind (strLower funding_system)) then
    true
  else
    false

theorem competitive_institutions_ne_empty : ¬ "" ∈ competitive_institutions := by
  decide

theorem competitive_project_types_ne_empty :
    ∀ t ∈ competitive_project_types, t ≠ "" := by decide

theorem competitive_indicators_ne_empty :
    ∀ t ∈ competitive_indicators, t ≠ "" := by decide

theorem gate_mem_iff {inst : String} :
    (inst != "" && competitive_institutions.contains inst) = true ↔
      inst ∈ competitive_institutions := by
  constructor
  · intro h
    exact List.elem_iff.mp (Bool.and_eq_true .. ▸ h).2
  · intro h
    refine Bool.and_eq_true .. ▸ ⟨?_, List.elem_iff.mpr h⟩
    rcases eq_or_ne inst "" with rfl | hne
    · exact absurd h competitive_institutions_ne_empty
    · simpa using hne

theorem gate_sub_iff {s : String} {L : List String}
    (hL : ∀ t ∈ L, t ≠ "") :
    (s != "" && L.any (fun t => pyIn t s)) = true ↔
      ∃ t ∈ L, ∃ l r, s.data = l ++ t.data ++ r := by
  constructor
  · intro h
    rcases (Bool.and_eq_true .. ▸ h).2 |> List.any_eq_true.mp with ⟨t, ht, hin⟩
    exact ⟨t, ht, pyIn_iff.mp hin⟩
  · rintro ⟨t, ht, l, r, hlr⟩
    refine Bool.and_eq_true .. ▸ ⟨?_, List.any_eq_true.mpr ⟨t, ht, pyIn_iff.mpr ⟨l, r, hlr⟩⟩⟩
    rcases eq_or_ne s "" with rfl | hne
    · have hlen := congrArg List.length hlr
      simp at hlen
      have hdl : t.data.length = t.length := rfl
      have ht0 : t.data = [] := List.eq_nil_of_length_eq_zero (by omega)
      exact absurd (String.ext ht0) (hL t ht)
    · simpa using hne

theorem strLower_empty_iff {s : String} : strLower s = "" ↔ s = "" := by
  constructor
  · intro h
    have : s.data.map Char.toLower = [] := congrArg String.data h
    exact String.ext (List.map_eq_nil_iff.mp this)
  · rintro rfl; rfl

/-- C1: the classifier returns true iff one of the three gates fires —
institution exactly in the allow-list, a competitive project-type entry
occurring as a substring of the project type, or a competitive-indicator
keyword occurring in the lowercased raw funding text — and the four concrete
classifications from the specification hold. -/
theorem C1_is_competitive_funding_three_gates :
    (∀ fs inst pt, is_competitive_funding_by_html_structure fs inst pt = true ↔
      (inst ∈ competitive_institutions ∨
       (∃ t ∈ competitive_project_types, ∃ l r, pt.data = l ++ t.data ++ r) ∨
       (∃ k ∈ competitive_indicators,
          ∃ l r, (strLower fs).data = l ++ k.data ++ r))) ∧
    is_competitive_funding_by_html_structure "" "日本学術振興会" "" = true ∧
    is_competitive_funding_by_html_structure "" "" "基盤研究(C)" = true ∧
    is_competitive_funding_by_html_structure "本研究は若手研究の一環である" "" "" = true ∧
    is_competitive_funding_by_html_structure "自主研究" "私企業" "社内研究" = false := by
  refine ⟨?_, by decide, by decide, by decide, by decide⟩
  intro fs inst pt
  unfold is_competitive_funding_by_html_structure
  have h3 : (fs != "" &&
      competitive_indicators.any (fun ind => pyIn ind (strLower fs))) = true ↔
      ∃ k ∈ competitive_indicators, ∃ l r, (strLower fs).data = l ++ k.data ++ r := by
    constructor
    · intro h
      rcases (Bool.and_eq_true .. ▸ h).2 |> List.any_eq_true.mp with ⟨t, ht, hin⟩
      exact ⟨t, ht, pyIn_iff.mp hin⟩
    · rintro ⟨t, ht, l, r, hlr⟩
      refine Bool.and_eq_true .. ▸
        ⟨?_, List.any_eq_true.mpr ⟨t, ht, pyIn_iff.mpr ⟨l, r, hlr⟩⟩⟩
      rcases eq_or_ne fs "" with rfl | hne
      · have hlen := congrArg List.length hlr
        simp [strLower] at hlen
        have hdl : t.data.length = t.length := rfl
        have ht0 : t.data = [] := List.eq_nil_of_length_eq_zero (by omega)
        exact absurd (String.ext ht0) (competitive_indicators_ne_empty t ht)
      · simpa using hne
  split_ifs with h1 h2 hk
  · simp only [true_iff]
    exact Or.inl (gate_mem_iff.mp h1)
  · simp only [true_iff]
    exact Or.inr (Or.inl ((gate_sub_iff competitive_project_types_ne_empty).mp h2))
  · simp only [true_iff]
    exact Or.inr (Or.inr (h3.mp hk))
  · simp only [Bool.false_eq_true, false_iff]
    rintro (hm | hs | hK)
    · exact h1 (gate_mem_iff.mpr hm)
    · exact h2 ((gate_sub_iff competitive_project_types_ne_empty).mpr hs)
    · exact hk (h3.mpr hK)

/-! ## C8: purity of the classifier

The Python method reads no instance state for its decision and writes none
(its only side effect is logging, an external collaborator).  We model a run
of the classifier as a state-passing function over the scraper's mutable
state and show the returned boolean is independent of that state and the
state is returned unchanged. -/

/-- The mutable state of a `ResearchMapIntegratedScraper` instance visible to
its methods (accumulated results and the session configuration). -/
structure ScraperState where
  session_headers : List (String × String)
  accumulated_results : List String

/-- One run of `is_competitive_funding_by_html_structure` as a state-passing
computation: the decision is computed from the three text inputs alone and
the instance state is passed through untouched. -/
def classify_run (st : ScraperState) (funding_system institution project_type : String) :
    Bool × ScraperState :=
  (is_competitive_funding_by_html_structure funding_system institution project_type, st)

/-- C8: the classifier is deterministic and pure — two runs on identical
text inputs return the identical boolean whatever the surrounding scraper
states are, and each run returns its state unmutated. -/
theorem C8_classifier_pure :
    ∀ (st st' : ScraperState) (fs inst pt : String),
      (classify_run st fs inst pt).1 = (classify_run st' fs inst pt).1 ∧
      (classify_run st fs inst pt).2 = st ∧
      (classify_run st' fs inst pt).2 = st' := by
  intro st st' fs inst pt
  exact ⟨rfl, rfl, rfl⟩

/-! ## C9: researcher-id derivation from a URL

Source: `researchmap_integrated_scraper.py`, `URLHelper.extract_researcher_id`
(lines 149–152): `url.split('/')[-1]`, i.e. the suffix of the URL after its
last `'/'` (the whole URL when it has none). -/

/-- `URLHelper.extract_researcher_id(url)` = `url.split('/')[-1]`. -/
def extract_researcher_id (url : String) : String :=
  String.mk ((url.data.reverse.takeWhile (fun c => c != '/')).reverse)

theorem takeWhile_all_of_sat {p : Char → Bool} {l : List Char}
    (h : ∀ c ∈ l, p c = true) : l.takeWhile p = l := by
  induction l with
  | nil => rfl
  | cons c cs ih =>
    simp only [List.takeWhile_cons, h c (List.mem_cons_self c cs)]
    exact congrArg (c :: ·) (ih fun x hx => h x (List.mem_cons_of_mem c hx))

/-- C9: the id is the substring after the final `'/'`; a URL ending in `'/'`
gets the empty id, and any two URLs ending in `'/'` get the same id. -/
theorem C9_extract_researcher_id_last_segment :
    (∀ (s t : List Char), (∀ c ∈ t, c ≠ '/') →
      extract_researcher_id (String.mk (s ++ '/' :: t)) = String.mk t) ∧
    (∀ s : List Char, extract_researcher_id (String.mk (s ++ ['/'])) = "") ∧
    (∀ s₁ s₂ : List Char,
      extract_researcher_id (String.mk (s₁ ++ ['/'])) =
        extract_researcher_id (String.mk (s₂ ++ ['/']))) := by
  have key : ∀ (s t : List Char), (∀ c ∈ t, c ≠ '/') →
      extract_researcher_id (String.mk (s ++ '/' :: t)) = String.mk t := by
    intro s t ht
    unfold extract_researcher_id
    have hrev : (s ++ '/' :: t).reverse = t.reverse ++ '/' :: s.reverse := by
      simp
    have hsat : ∀ c ∈ t.reverse, (c != '/') = true := by
      intro c hc
      simpa using ht c (List.mem_reverse.mp hc)
    have : (t.reverse ++ '/' :: s.reverse).takeWhile (fun c => c != '/') =
        t.reverse := by
      rw [List.takeWhile_append]
      rw [takeWhile_all_of_sat hsat]
      simp [List.takeWhile_cons]
    show String.mk ((s ++ '/' :: t).reverse.takeWhile (fun c => c != '/')).reverse =
      String.mk t
    rw [hrev, this, List.reverse_reverse]
  refine ⟨key, fun s => ?_, fun s₁ s₂ => ?_⟩
  · simpa using key s [] (by simp)
  · have h1 := key s₁ [] (by simp)
    have h2 := key s₂ [] (by simp)
    simp only [List.append_nil] at h1 h2
    rw [h1, h2]

/-- C9 witness: a concrete detail URL, and one ending in a slash. -/
theorem C9_extract_researcher_id_witness :
    extract_researcher_id (String.mk ("https://researchmap.jp".data ++ '/' :: "read0123456".data)) =
      "read0123456" ∧
    extract_researcher_id (String.mk ("https://researchmap.jp/read9".data ++ '/' :: [])) = "" := by
  constructor
  · exact C9_extract_researcher_id_last_segment.1 "https://researchmap.jp".data
      "read0123456".data (by decide)
  · simpa using C9_extract_researcher_id_last_segment.1 "https://researchmap.jp/read9".data
      [] (by simp)

/-! ## C5 / C10: the pagination controller

Source: `researchmap_integrated_scraper.py`,
`ResearchMapIntegratedScraper.get_total_pages` (lines 361–399).  The fetch
and HTML parse of page 1 are modelled by an `Except`-valued argument holding
the two pieces of information the code reads from the page: the first number
captured by the `総件数\s*(\d+)` marker (if any element carries one) and the
numeric page links of the `ul.pagination` control. -/

def ITEMS_PER_PAGE : Nat := 60

/-- What `get_total_pages` reads off the fetched first search page. -/
structure SearchPageData where
  total_count : Option Nat
  pagination_numbers : List Nat
deriving DecidableEq

/-- The marker / pagination / default-1 cascade of `get_total_pages` after a
successful fetch. -/
def get_total_pages_parsed (page : SearchPageData) : Nat :=
  match page.total_count with
  | some total_count => (total_count + ITEMS_PER_PAGE - 1) / ITEMS_PER_PAGE
  | none =>
    match page.pagination_numbers with
    | [] => 1
    | x :: xs => xs.foldl max x

/-- `get_total_pages`, with the whole fetch-and-parse wrapped in
`try/except Exception: return 1`. -/
def get_total_pages (fetch_result : Except String SearchPageData) : Nat :=
  match fetch_result with
  | .error _ => 1
  | .ok page => get_total_pages_parsed page

theorem foldl_max_le_init {xs : List Nat} {x : Nat} : x ≤ xs.foldl max x := by
  induction xs generalizing x with
  | nil => exact le_rfl
  | cons a as ih => exact le_trans (le_max_left x a) ih

theorem foldl_max_le {xs : List Nat} {x y : Nat} (h : y ∈ xs) :
    y ≤ xs.foldl max x := by
  induction xs generalizing x with
  | nil => cases h
  | cons a as ih =>
    rcases List.mem_cons.mp h with rfl | hmem
    · exact le_trans (le_max_right x y) foldl_max_le_init
    · exact ih hmem

theorem foldl_max_mem (xs : List Nat) (x : Nat) :
    xs.foldl max x = x ∨ xs.foldl max x ∈ xs := by
  induction xs generalizing x with
  | nil => exact Or.inl rfl
  | cons a as ih =>
    rcases ih (max x a) with h | h
    · rcases max_choice x a with hx | hx
      · exact Or.inl (by rw [List.foldl_cons, h, hx])
      · exact Or.inr (by rw [List.foldl_cons, h, hx]; exact List.mem_cons_self a as)
    · exact Or.inr (List.mem_cons_of_mem a h)

/-- C5: with the total-count marker present, `get_total_pages` returns
`ceil(total / 60)` (60 = items per page), characterised as the least `k` with
`total ≤ 60 * k`; with the marker absent it returns the maximum page number
of the pagination control; with both absent it returns 1; and a page
reporting total count 125 yields 3. -/
theorem C5_get_total_pages_cascade :
    (∀ n ps, get_total_pages_parsed ⟨some n, ps⟩ = (n + 59) / 60 ∧
      n ≤ 60 * get_total_pages_parsed ⟨some n, ps⟩ ∧
      (∀ k, n ≤ 60 * k → get_total_pages_parsed ⟨some n, ps⟩ ≤ k)) ∧
    (∀ x xs, (get_total_pages_parsed ⟨none, x :: xs⟩ ∈ x :: xs ∧
      ∀ y ∈ x :: xs, y ≤ get_total_pages_parsed ⟨none, x :: xs⟩)) ∧
    get_total_pages_parsed ⟨none, []⟩ = 1 ∧
    get_total_pages (.ok ⟨some 125, []⟩) = 3 := by
  refine ⟨fun n ps => ⟨rfl, ?_, fun k hk => ?_⟩, fun x xs => ⟨?_, ?_⟩, rfl, rfl⟩
  · show n ≤ 60 * ((n + 60 - 1) / 60)
    omega
  · show (n + 60 - 1) / 60 ≤ k
    omega
  · show xs.foldl max x ∈ x :: xs
    rcases foldl_max_mem xs x with h | h
    · rw [h]; exact List.mem_cons_self x xs
    · exact List.mem_cons_of_mem x h
  · intro y hy
    show y ≤ xs.foldl max x
    rcases List.mem_cons.mp hy with rfl | hmem
    · exact foldl_max_le_init
    · exact foldl_max_le hmem

/-- C5 witness: the marker branch at total 125 (the least-`k` clause applied
at `k = 3`), and the pagination branch on links `[2, 5, 3]`. -/
theorem C5_get_total_pages_witness :
    get_total_pages_parsed ⟨some 125, []⟩ = 3 ∧
    get_total_pages_parsed ⟨some 125, []⟩ ≤ 3 ∧
    get_total_pages_parsed ⟨none, [2, 5, 3]⟩ ∈ [2, 5, 3] := by
  refine ⟨(C5_get_total_pages_cascade.1 125 []).1.trans (by decide), ?_, ?_⟩
  · exact (C5_get_total_pages_cascade.1 125 []).2.2 3 (by decide)
  · exact (C5_get_total_pages_cascade.2.1 2 [5, 3]).1

/-- C10: `get_total_pages` never propagates a fetch/parse failure — any
exception during the first-page fetch or parse yields 1, and a successful
fetch is handled by the marker/pagination/default cascade. -/
theorem C10_get_total_pages_catches_all :
    (∀ e : String, get_total_pages (.error e) = 1) ∧
    (∀ page, get_total_pages (.ok page) = get_total_pages_parsed page) := by
  exact ⟨fun _ => rfl, fun _ => rfl⟩

/-! ## C2: the per-researcher crawl loop

Source: `researchmap_integrated_scraper.py`,
`ResearchMapIntegratedScraper.scrape_all_researchers_and_projects`
(lines 1109–1158), `get_researcher_detailed_info` (lines 485–519) and
`_extract_all_projects` (lines 657–717).  Per-researcher fetches are
modelled by `Except`-valued oracles carried with each listing stub:
`.error` is a raised `FetchError` (a `requests.RequestException`). -/

/-- The detail-page fields `get_researcher_detailed_info` assembles on
success. -/
structure ResearcherDetail where
  orcid_id : String
  jglobal_id : String
  researchmap_member_id : String
  research_keywords : List String
  research_areas : List String
  all_affiliations : List String
deriving DecidableEq

/-- `get_researcher_detailed_info`: its whole body sits in a
`try/except Exception` that logs and returns the empty dict `{}` (modelled
as `none`), so a raised `FetchError` never escapes it. -/
def get_researcher_detailed_info (detail_fetch : Except String ResearcherDetail) :
    Option ResearcherDetail :=
  match detail_fetch with
  | .ok d => some d
  | .error _ => none

/-- One parsed `li.list-group-item` of the research-projects page, before
the title-presence check (`title` is `none` when no title link exists). -/
structure RawProjectItem where
  title : Option String
  project_url : String
  funding_text : Option String
deriving DecidableEq

/-- A project dict as the scraper builds and the aggregator consumes it;
`none` models an absent dict key. -/
structure ProjectRecord where
  title : String
  project_url : String
  funding_system : Option String
  institution : Option String
  project_type : Option String
  period : Option String
  is_competitive : Bool
deriving DecidableEq

/-- `_extract_all_projects`: on any exception return `[]`; otherwise keep
exactly the items with a truthy title, classifying each with
`is_competitive_funding_by_html_structure(funding_system, '', '')` — the
item dicts never carry `institution` / `project_type` keys, so those
arguments default to the empty string. -/
def extract_all_projects (projects_fetch : Except String (List RawProjectItem)) :
    List ProjectRecord :=
  match projects_fetch with
  | .error _ => []
  | .ok items =>
    (items.filter (fun it => it.title.getD "" != "")).map fun it =>
      { title := it.title.getD ""
        project_url := it.project_url
        funding_system := it.funding_text
        institution := none
        project_type := none
        period := none
        is_competitive :=
          is_competitive_funding_by_html_structure (it.funding_text.getD "") "" "" }

/-- A listing stub together with the outcome of the two per-researcher
fetches the loop performs. -/
structure ResearcherInput where
  name : String
  researcher_url : Option String
  detail_fetch : Except String ResearcherDetail
  projects_fetch : Except String (List RawProjectItem)

/-- Truthiness of `researcher.get('researcher_url')`. -/
def hasUrl (inp : ResearcherInput) : Bool := inp.researcher_url.getD "" != ""

/-- The per-researcher record appended by the crawl loop. -/
structure ResearcherRecord where
  name : String
  detailed_info : Option ResearcherDetail
  all_projects : List ProjectRecord
  competitive_projects : List ProjectRecord
  competitive_project_count : Nat
deriving DecidableEq

/-- `_extract_competitive_projects`. -/
def extract_competitive_projects (all_projects : List ProjectRecord) :
    List ProjectRecord :=
  all_projects.filter (fun p => p.is_competitive)

/-- One iteration of the crawl loop: `continue` (`none`) only when the stub
has no truthy URL; the detail and projects fetches cannot raise out of their
callees, so every researcher with a URL yields a record. -/
def process_researcher (inp : ResearcherInput) : Option ResearcherRecord :=
  if hasUrl inp then
    let detailed_info := get_researcher_detailed_info inp.detail_fetch
    let all_projects := extract_all_projects inp.projects_fetch
    let competitive_projects := extract_competitive_projects all_projects
    some { name := inp.name
           detailed_info := detailed_info
           all_projects := all_projects
           competitive_projects := competitive_projects
           competitive_project_count := competitive_projects.length }
  else
    none

/-- The dict returned by `scrape_all_researchers_and_projects`. -/
structure ScrapeResult where
  total_researchers : Nat
  processed_researchers : Nat
  total_competitive_projects : Nat
  researchers : List ResearcherRecord
deriving DecidableEq

/-- `scrape_all_researchers_and_projects` restricted to its crawl loop over
an already-fetched researcher listing. -/
def scrape_all_researchers_and_projects (all_researchers : List ResearcherInput) :
    ScrapeResult :=
  let recs := all_researchers.filterMap process_researcher
  { total_researchers := all_researchers.length
    processed_researchers := recs.length
    total_competitive_projects := (recs.map (·.competitive_project_count)).sum
    researchers := recs }

/-- The record the loop appends for a researcher whose stub carries a URL. -/
def researcher_record_of (inp : ResearcherInput) : ResearcherRecord :=
  { name := inp.name
    detailed_info := get_researcher_detailed_info inp.detail_fetch
    all_projects := extract_all_projects inp.projects_fetch
    competitive_projects := extract_competitive_projects (extract_all_projects inp.projects_fetch)
    competitive_project_count :=
      (extract_competitive_projects (extract_all_projects inp.projects_fetch)).length }

theorem process_researcher_of_hasUrl {inp : ResearcherInput} (h : hasUrl inp = true) :
    process_researcher inp = some (researcher_record_of inp) := by
  simp [process_researcher, researcher_record_of, h]

theorem crawl_records_eq_map {inputs : List ResearcherInput}
    (h : ∀ inp ∈ inputs, hasUrl inp = true) :
    inputs.filterMap process_researcher = inputs.map researcher_record_of := by
  induction inputs with
  | nil => rfl
  | cons a as ih =>
    rw [List.filterMap_cons, process_researcher_of_hasUrl (h a (List.mem_cons_self a as)),
      List.map_cons]
    exact congrArg _ (ih fun x hx => h x (List.mem_cons_of_mem a hx))

/-- C2 (amended): when every stub carries a URL, the crawl loop yields one
record per researcher — a detail-fetch `FetchError` is caught inside
`get_researcher_detailed_info`, which returns the empty dict, so the failing
researcher still produces a record (with empty detail fields) rather than
being skipped or marked failed. -/
theorem C2_detail_fetch_failure_keeps_record :
    ∀ (inputs : List ResearcherInput),
      (∀ inp ∈ inputs, hasUrl inp = true) →
      (scrape_all_researchers_and_projects inputs).researchers.length = inputs.length ∧
      (scrape_all_researchers_and_projects inputs).processed_researchers = inputs.length ∧
      ∀ (i : Nat) (h : i < inputs.length),
        ∃ h2 : i < (scrape_all_researchers_and_projects inputs).researchers.length,
          ((scrape_all_researchers_and_projects inputs).researchers.get ⟨i, h2⟩).name =
            (inputs.get ⟨i, h⟩).name ∧
          ∀ e, (inputs.get ⟨i, h⟩).detail_fetch = .error e →
            ((scrape_all_researchers_and_projects inputs).researchers.get
              ⟨i, h2⟩).detailed_info = none := by
  intro inputs hurl
  have hrecs : (scrape_all_researchers_and_projects inputs).researchers =
      inputs.map researcher_record_of := crawl_records_eq_map hurl
  have hlen : (scrape_all_researchers_and_projects inputs).researchers.length =
      inputs.length := by rw [hrecs, List.length_map]
  refine ⟨hlen, ?_, ?_⟩
  · show (inputs.filterMap process_researcher).length = inputs.length
    rw [crawl_records_eq_map hurl, List.length_map]
  · intro i h
    refine ⟨by omega, ?_, ?_⟩
    · simp only [hrecs, List.get_eq_getElem, List.getElem_map]
      rfl
    · intro e he
      rw [List.get_eq_getElem] at he
      simp only [hrecs, List.get_eq_getElem, List.getElem_map]
      simp [researcher_record_of, get_researcher_detailed_info, he]

/-- The five-researcher crawl of the specification's skip-and-continue
scenario: researcher 2's detail fetch raises a `FetchError`, all other
fetches succeed. -/
def c2_example_inputs : List ResearcherInput :=
  [{ name := "研究者1", researcher_url := some "https://researchmap.jp/r1",
     detail_fetch := .ok ⟨"0000-0001", "", "", ["kw"], [], []⟩, projects_fetch := .ok [] },
   { name := "研究者2", researcher_url := some "https://researchmap.jp/r2",
     detail_fetch := .error "FetchError: connection reset", projects_fetch := .ok [] },
   { name := "研究者3", researcher_url := some "https://researchmap.jp/r3",
     detail_fetch := .ok ⟨"0000-0003", "", "", [], [], []⟩, projects_fetch := .ok [] },
   { name := "研究者4", researcher_url := some "https://researchmap.jp/r4",
     detail_fetch := .ok ⟨"0000-0004", "", "", [], [], []⟩, projects_fetch := .ok [] },
   { name := "研究者5", researcher_url := some "https://researchmap.jp/r5",
     detail_fetch := .ok ⟨"0000-0005", "", "", [], [], []⟩, projects_fetch := .ok [] }]

/-- C2 counterexample: with 5 researchers and researcher 2's detail fetch
raising `FetchError`, the result holds a normal record for *all five*
researchers — researcher 2 appears with empty detail info instead of being
dropped and recorded as failed. -/
theorem C2_counterexample_failed_entity_still_recorded :
    (scrape_all_researchers_and_projects c2_example_inputs).researchers.map (·.name) =
      ["研究者1", "研究者2", "研究者3", "研究者4", "研究者5"] ∧
    (scrape_all_researchers_and_projects c2_example_inputs).processed_researchers = 5 ∧
    ((scrape_all_researchers_and_projects c2_example_inputs).researchers.get? 1).map
      (·.detailed_info) = some none ∧
    ¬ ((scrape_all_researchers_and_projects c2_example_inputs).researchers.map (·.name) =
      ["研究者1", "研究者3", "研究者4", "研究者5"]) := by
  refine ⟨rfl, rfl, rfl, by decide⟩

/-- C2 witness: the amended statement applied to the 5-researcher scenario. -/
theorem C2_detail_fetch_failure_keeps_record_witness :
    (scrape_all_researchers_and_projects c2_example_inputs).researchers.length = 5 ∧
    ((scrape_all_researchers_and_projects c2_example_inputs).researchers.get? 1).map
      (·.detailed_info) = some none := by
  obtain ⟨hlen, -, hrec⟩ :=
    C2_detail_fetch_failure_keeps_record c2_example_inputs (by decide)
  obtain ⟨h2, -, hdet⟩ := hrec 1 (by decide)
  refine ⟨hlen, ?_⟩
  rw [List.get?_eq_get h2, Option.map_some', hdet "FetchError: connection reset" rfl]

/-! ## C7: the summary aggregator

Source: `researchmap_integrated_scraper.py`,
`ResearchMapIntegratedScraper.generate_summary` (lines 1391–1437).  The
institution histogram iterates over *all* projects of the entity, reading
`project.get('institution', 'Unknown')`; the period set keeps the non-empty
period strings (Python's `list(set(...))` is modelled by `dedup`, the claim
being about the underlying set). -/

/-- `project.get('institution', 'Unknown')`. -/
def instKey (p : ProjectRecord) : String := p.institution.getD "Unknown"

/-- One step of the histogram loop: bump an existing key or append a new
key with count 1 (Python dicts keep insertion order). -/
def addInstitution (acc : List (String × Nat)) (inst : String) : List (String × Nat) :=
  if acc.any (fun kv => kv.1 == inst) then
    acc.map (fun kv => if kv.1 == inst then (kv.1, kv.2 + 1) else kv)
  else
    acc ++ [(inst, 1)]

/-- The `comprehensive_data` dict fields `generate_summary` reads. -/
structure ComprehensiveData where
  basic_name : String
  research_keywords : List String
  research_areas : List String
  all_affiliations : List String
  education : List String
  research_projects : List ProjectRecord

/-- The summary dict `generate_summary` returns (the fields carrying
aggregate content). -/
structure SummaryRecord where
  researcher_name : String
  research_keywords_count : Nat
  research_areas_count : Nat
  affiliations_count : Nat
  education_count : Nat
  total_projects : Nat
  competitive_projects : Nat
  funding_institutions : List (String × Nat)
  unique_institutions_count : Nat
  research_periods : List String
deriving DecidableEq

/-- `generate_summary`. -/
def generate_summary (data : ComprehensiveData) : SummaryRecord :=
  let projects := data.research_projects
  let institutions := projects.foldl (fun acc p => addInstitution acc (instKey p)) []
  { researcher_name := data.basic_name
    research_keywords_count := data.research_keywords.length
    research_areas_count := data.research_areas.length
    affiliations_count := data.all_affiliations.length
    education_count := data.education.length
    total_projects := projects.length
    competitive_projects := (projects.filter (fun p => p.is_competitive)).length
    funding_institutions := institutions
    unique_institutions_count := institutions.length
    research_periods :=
      ((projects.filterMap (fun p => p.period)).filter (fun s => s != "")).dedup }

theorem beq_self_str (i : String) : (i == i) = true := by simp

theorem lookup_map_bump (i : String) (acc : List (String × Nat)) :
    List.lookup i (acc.map (fun kv => if kv.1 == i then (kv.1, kv.2 + 1) else kv)) =
      (List.lookup i acc).map (· + 1) := by
  induction acc with
  | nil => rfl
  | cons kv acc ih =>
    obtain ⟨k, v⟩ := kv
    by_cases hk : (k == i) = true
    · have hik : (i == k) = true := by rw [eq_of_beq hk]; exact beq_self_str i
      simp only [List.map_cons, hk, if_true, List.lookup_cons, hik, Option.map_some']
    · have hk' : (k == i) = false := by simpa using hk
      have hik : (i == k) = false := by
        rcases beq_eq_false_iff_ne.mp hk' with hne
        exact beq_false_of_ne (fun h => hne h.symm)
      simp only [List.map_cons, hk', Bool.false_eq_true, if_false, List.lookup_cons, hik]
      exact ih

theorem lookup_map_bump_other {j i : String} (h : j ≠ i) (acc : List (String × Nat)) :
    List.lookup j (acc.map (fun kv => if kv.1 == i then (kv.1, kv.2 + 1) else kv)) =
      List.lookup j acc := by
  induction acc with
  | nil => rfl
  | cons kv acc ih =>
    obtain ⟨k, v⟩ := kv
    by_cases hjk : (j == k) = true
    · have hki : (k == i) = false := by
        rw [← eq_of_beq hjk]
        exact beq_false_of_ne h
      simp only [List.map_cons, hki, Bool.false_eq_true, if_false, List.lookup_cons, hjk]
    · have hjk' : (j == k) = false := by simpa using hjk
      by_cases hki : (k == i) = true
      · simp only [List.map_cons, hki, if_true, List.lookup_cons, hjk']
        exact ih
      · have hki' : (k == i) = false := by simpa using hki
        simp only [List.map_cons, hki', Bool.false_eq_true, if_false, List.lookup_cons, hjk']
        exact ih

theorem lookup_append_assoc (j : String) (l₁ l₂ : List (String × Nat)) :
    List.lookup j (l₁ ++ l₂) =
      match List.lookup j l₁ with
      | some v => some v
      | none => List.lookup j l₂ := by
  induction l₁ with
  | nil => simp [List.lookup]
  | cons kv l₁ ih =>
    obtain ⟨k, v⟩ := kv
    by_cases hjk : (j == k) = true
    · simp only [List.cons_append, List.lookup_cons, hjk]
    · have hjk' : (j == k) = false := by simpa using hjk
      simp only [List.cons_append, List.lookup_cons, hjk']
      exact ih

theorem any_key_iff_lookup_isSome (i : String) (acc : List (String × Nat)) :
    (acc.any fun kv => kv.1 == i) = (List.lookup i acc).isSome := by
  induction acc with
  | nil => rfl
  | cons kv acc ih =>
    obtain ⟨k, v⟩ := kv
    by_cases hk : (k == i) = true
    · have hik : (i == k) = true := by rw [eq_of_beq hk]; exact beq_self_str i
      simp [List.lookup_cons, hik, hk]
    · have hk' : (k == i) = false := by simpa using hk
      have hik : (i == k) = false := by
        rcases beq_eq_false_iff_ne.mp hk' with hne
        exact beq_false_of_ne (fun h => hne h.symm)
      simp only [List.any_cons, hk', Bool.false_or, List.lookup_cons, hik]
      exact ih

theorem addInstitution_lookup_same (acc : List (String × Nat)) (i : String) :
    List.lookup i (addInstitution acc i) = some ((List.lookup i acc).getD 0 + 1) := by
  unfold addInstitution
  by_cases hmem : (acc.any fun kv => kv.1 == i) = true
  · rw [if_pos hmem, lookup_map_bump]
    rw [any_key_iff_lookup_isSome] at hmem
    obtain ⟨v, hv⟩ := Option.isSome_iff_exists.mp hmem
    rw [hv]
    rfl
  · rw [if_neg hmem, lookup_append_assoc]
    have hnone : List.lookup i acc = none := by
      rw [any_key_iff_lookup_isSome] at hmem
      exact Option.not_isSome_iff_eq_none.mp (by simpa using hmem)
    rw [hnone]
    simp [List.lookup_cons, beq_self_str i]

theorem addInstitution_lookup_other {j i : String} (h : j ≠ i)
    (acc : List (String × Nat)) :
    List.lookup j (addInstitution acc i) = List.lookup j acc := by
  unfold addInstitution
  have hji : (j == i) = false := beq_false_of_ne h
  by_cases hmem : (acc.any fun kv => kv.1 == i) = true
  · rw [if_pos hmem]
    exact lookup_map_bump_other h acc
  · rw [if_neg hmem, lookup_append_assoc]
    have hsingle : List.lookup j [(i, 1)] = none := by
      simp [List.lookup_cons, hji]
    rw [hsingle]
    cases List.lookup j acc <;> rfl

theorem fold_hist_lookup (l : List ProjectRecord) (acc : List (String × Nat)) (j : String) :
    List.lookup j (l.foldl (fun acc p => addInstitution acc (instKey p)) acc) =
      match List.lookup j acc with
      | some k => some (k + (l.map instKey).count j)
      | none =>
        if (l.map instKey).count j = 0 then none else some ((l.map instKey).count j) := by
  induction l generalizing acc with
  | nil =>
    cases h : List.lookup j acc with
    | none => simp [h]
    | some k => simp [h]
  | cons p l ih =>
    rw [List.foldl_cons, ih]
    by_cases hj : j = instKey p
    · subst hj
      rw [addInstitution_lookup_same]
      have hcount : ((p :: l).map instKey).count (instKey p) =
          (l.map instKey).count (instKey p) + 1 := by
        simp [List.count_cons]
      rw [hcount]
      cases h : List.lookup (instKey p) acc with
      | none => simp [h, Nat.add_comm]
      | some k =>
        simp only [h, Option.getD_some]
        exact congrArg some (by omega)
    · rw [addInstitution_lookup_other hj]
      have hcount : ((p :: l).map instKey).count j = (l.map instKey).count j := by
        simp [List.count_cons, beq_false_of_ne (fun hh => hj hh.symm)]
      rw [hcount]

/-- The end-to-end scenario's competitive SubRecord: institution
`日本学術振興会`, competitive through the institution gate. -/
def c7_competitive_project : ProjectRecord :=
  { title := "競争的研究課題A"
    project_url := "https://researchmap.jp/p1"
    funding_system := some "日本学術振興会 科学研究費助成事業"
    institution := some "日本学術振興会"
    project_type := none
    period := some "2023年4月 - 2026年3月"
    is_competitive := is_competitive_funding_by_html_structure "" "日本学術振興会" "" }

/-- The scenario's non-competitive SubRecord: no institution key, internal
funding text, classified non-competitive. -/
def c7_noncompetitive_project : ProjectRecord :=
  { title := "社内研究課題B"
    project_url := "https://researchmap.jp/p2"
    funding_system := some "自主研究"
    institution := none
    project_type := none
    period := none
    is_competitive := is_competitive_funding_by_html_structure "自主研究" "" "" }

/-- The aggregated entity of the end-to-end scenario: a detail page with 3
keywords and a sub-listing with the two SubRecords above. -/
def c7_example_data : ComprehensiveData :=
  { basic_name := "研究者A"
    research_keywords := ["材料科学", "ナノテクノロジー", "表面工学"]
    research_areas := []
    all_affiliations := []
    education := []
    research_projects := [c7_competitive_project, c7_noncompetitive_project] }

/-- C7 counterexample: in the two-SubRecord scenario (one institution-gated
competitive, one non-competitive) the histogram is *not*
`{"日本学術振興会": 1}` — it also counts the non-competitive SubRecord
under the default key `"Unknown"`. -/
theorem C7_counterexample_histogram_counts_all_subrecords :
    (generate_summary c7_example_data).competitive_projects = 1 ∧
    (generate_summary c7_example_data).funding_institutions ≠ [("日本学術振興会", 1)] ∧
    List.lookup "Unknown" (generate_summary c7_example_data).funding_institutions =
      some 1 := by
  refine ⟨by decide, by decide, by decide⟩

/-- C7 (amended): the summary's histogram maps every institution key to its
occurrence count across *all* of the entity's SubRecords (a SubRecord with
no institution counting under `"Unknown"`), and its period set is exactly
the set of distinct non-empty period strings observed; in the two-SubRecord
scenario the aggregate has competitive count 1 and histogram
`{"日本学術振興会": 1, "Unknown": 1}`. -/
theorem C7_generate_summary_histogram_and_periods :
    (∀ data j, List.lookup j (generate_summary data).funding_institutions =
      (if (data.research_projects.map instKey).count j = 0 then none
       else some ((data.research_projects.map instKey).count j))) ∧
    (∀ data s, s ∈ (generate_summary data).research_periods ↔
      (∃ p ∈ data.research_projects, p.period = some s ∧ s ≠ "")) ∧
    (generate_summary c7_example_data).total_projects = 2 ∧
    (generate_summary c7_example_data).competitive_projects = 1 ∧
    (generate_summary c7_example_data).funding_institutions =
      [("日本学術振興会", 1), ("Unknown", 1)] ∧
    (generate_summary c7_example_data).research_periods =
      ["2023年4月 - 2026年3月"] ∧
    (generate_summary c7_example_data).research_keywords_count = 3 := by
  refine ⟨?_, ?_, by decide, by decide, by decide, by decide, by decide⟩
  · intro data j
    show List.lookup j
      (data.research_projects.foldl (fun acc p => addInstitution acc (instKey p)) []) = _
    rw [fold_hist_lookup]
    rfl
  · intro data s
    show s ∈ ((data.research_projects.filterMap (fun p => p.period)).filter
      (fun s => s != "")).dedup ↔ _
    rw [List.mem_dedup, List.mem_filter]
    constructor
    · rintro ⟨hmem, hne⟩
      rcases List.mem_filterMap.mp hmem with ⟨p, hp, hps⟩
      exact ⟨p, hp, hps, by simpa using hne⟩
    · rintro ⟨p, hp, hps, hne⟩
      exact ⟨List.mem_filterMap.mpr ⟨p, hp, hps⟩, by simpa using hne⟩

/-! ## C3 / C4: the entity resolver (`normalize_vc_name`, `find_matching_vc`)

Source: `vc_portfolio_final_fixed.py`, `VCPortfolioWithFunding.normalize_vc_name`
(lines 21–43) and `find_matching_vc` (lines 45–70); the same two functions
appear verbatim in `integrated_vc_database.py` (lines 86–135).

`normalize_vc_name` is a chain of `re.sub(pattern, '', s)` calls.  Every
pattern is `\s*LIT` or `\s*LIT\.?` for a literal `LIT` starting with a
non-whitespace character, plus `\s*\([^)]*\)`; for such patterns a `re.sub`
scan is maximal-munch: at each position the `\s*` consumes the maximal
whitespace run, the literal must follow, an optional trailing dot is
consumed greedily, matches are removed left to right and scanning resumes
after each removed match.  The helpers below implement exactly that,
driven by a fuel argument bounded by the remaining string length (each
match consumes at least one character, so fuel `s.length` is never
exhausted). -/

/-- Consume one optional leading `'.'` (the greedy `\.?`). -/
def dropDot (l : List Char) : List Char :=
  match l with
  | '.' :: r => r
  | _ => l

/-- Match `\s*LIT(\.?)` at the head of `s`; return the rest after the match. -/
def litMatchAt (lit : List Char) (optDot : Bool) (s : List Char) :
    Option (List Char) :=
  let rest := s.dropWhile isPySpace
  if lit.isPrefixOf rest then
    let rest2 := rest.drop lit.length
    some (if optDot then dropDot rest2 else rest2)
  else none

/-- `re.sub(r'\s*LIT\.?', '', s)`: scan left to right, removing each match. -/
def reSubLitFuel (lit : List Char) (optDot : Bool) : Nat → List Char → List Char
  | _, [] => []
  | 0, s => s
  | fuel + 1, c :: cs =>
    match litMatchAt lit optDot (c :: cs) with
    | some rest => reSubLitFuel lit optDot fuel rest
    | none => c :: reSubLitFuel lit optDot fuel cs

def reSubLit (lit : List Char) (optDot : Bool) (s : List Char) : List Char :=
  reSubLitFuel lit optDot s.length s

/-- Match `\s*\([^)]*\)` at the head of `s`. -/
def parenMatchAt (s : List Char) : Option (List Char) :=
  match s.dropWhile isPySpace with
  | '(' :: r =>
    match r.dropWhile (fun c => c != ')') with
    | ')' :: r2 => some r2
    | _ => none
  | _ => none

/-- `re.sub(r'\s*\([^)]*\)', '', s)`. -/
def parenSubFuel : Nat → List Char → List Char
  | _, [] => []
  | 0, s => s
  | fuel + 1, c :: cs =>
    match parenMatchAt (c :: cs) with
    | some rest => parenSubFuel fuel rest
    | none => c :: parenSubFuel fuel cs

def parenSub (s : List Char) : List Char := parenSubFuel s.length s

/-- `re.sub(r'\s+', ' ', s)`: every maximal whitespace run becomes one `' '`. -/
def collapseWs : List Char → List Char
  | [] => []
  | [c] => if isPySpace c then [' '] else [c]
  | c :: c' :: cs =>
    if isPySpace c && isPySpace c' then collapseWs (c' :: cs)
    else (if isPySpace c then ' ' else c) :: collapseWs (c' :: cs)

/-- Python `str.strip()`. -/
def pyStrip (s : List Char) : List Char :=
  ((s.dropWhile isPySpace).reverse.dropWhile isPySpace).reverse

/-- The strip, parenthesis removal, and eleven suffix substitutions of
`normalize_vc_name`, in source order. -/
def normalize_presubs (l : List Char) : List Char :=
  let n0 := pyStrip l
  let n1 := parenSub n0
  let n2 := reSubLit "Inc".data true n1
  let n3 := reSubLit "LLC".data false n2
  let n4 := reSubLit "Ltd".data true n3
  let n5 := reSubLit "Co".data true n4
  let n6 := reSubLit "Corp".data true n5
  let n7 := reSubLit "株式会社".data false n6
  let n8 := reSubLit "有限会社".data false n7
  let n9 := reSubLit "合同会社".data false n8
  let n10 := reSubLit "PTE".data true n9
  reSubLit "LTD".data true n10

/-- `VCPortfolioWithFunding.normalize_vc_name`: falsy input → `""`; strip;
remove parenthesised content; remove the eleven suffix patterns in source
order; collapse whitespace; strip; lowercase. -/
def normalize_vc_name (vc_name : String) : String :=
  if vc_name = "" then ""
  else String.mk ((pyStrip (collapseWs (normalize_presubs vc_name.data))).map Char.toLower)

/-- C3 counterexample: removing one occurrence of `株式会社` can splice a
new occurrence together, so a second `normalize` pass removes more —
`normalize` is not idempotent. -/
theorem C3_counterexample_normalize_not_idempotent :
    normalize_vc_name "株式株式会社会社" = "株式会社" ∧
    normalize_vc_name (normalize_vc_name "株式株式会社会社") = "" ∧
    normalize_vc_name (normalize_vc_name "株式株式会社会社") ≠
      normalize_vc_name "株式株式会社会社" := by
  refine ⟨by decide, by decide, by decide⟩

/-! ### Character-level facts used by the idempotence analysis -/

theorem char_eq_of_toNat_eq {c d : Char} (h : c.toNat = d.toNat) : c = d :=
  Char.ext (UInt32.toNat.inj h)

theorem toLower_unfold (c : Char) :
    Char.toLower c =
      if c.toNat ≥ 65 ∧ c.toNat ≤ 90 then Char.ofNat (c.toNat + 32) else c := rfl

theorem toLower_toNat (c : Char) :
    (Char.toLower c).toNat =
      if c.toNat ≥ 65 ∧ c.toNat ≤ 90 then c.toNat + 32 else c.toNat := by
  rw [toLower_unfold]
  by_cases h : c.toNat ≥ 65 ∧ c.toNat ≤ 90
  · rw [if_pos h, if_pos h]
    have hv : (c.toNat + 32).isValidChar := Or.inl (by omega)
    rw [Char.ofNat, dif_pos hv]
    rfl
  · rw [if_neg h, if_neg h]

theorem toLower_not_upper (c : Char) :
    ¬(65 ≤ (Char.toLower c).toNat ∧ (Char.toLower c).toNat ≤ 90) := by
  rw [toLower_toNat]
  by_cases h : c.toNat ≥ 65 ∧ c.toNat ≤ 90
  · rw [if_pos h]; omega
  · rw [if_neg h]; omega

theorem toLower_eq_self_of_not_upper {c : Char}
    (h : ¬(65 ≤ c.toNat ∧ c.toNat ≤ 90)) : Char.toLower c = c := by
  rw [toLower_unfold, if_neg h]

theorem toLower_idem (c : Char) :
    Char.toLower (Char.toLower c) = Char.toLower c :=
  toLower_eq_self_of_not_upper (toLower_not_upper c)

theorem isPySpace_false_of_range {c : Char} (h1 : 33 ≤ c.toNat)
    (h2 : c.toNat ≤ 132) : isPySpace c = false := by
  unfold isPySpace
  simp only [Bool.or_eq_false_iff, Bool.and_eq_false_iff, beq_eq_false_iff_ne, ne_eq,
    decide_eq_false_iff_not, not_le]
  omega

theorem isPySpace_toLower (c : Char) : isPySpace (Char.toLower c) = isPySpace c := by
  by_cases h : c.toNat ≥ 65 ∧ c.toNat ≤ 90
  · have h1 : (Char.toLower c).toNat = c.toNat + 32 := by rw [toLower_toNat, if_pos h]
    rw [isPySpace_false_of_range (by omega) (by omega),
      isPySpace_false_of_range (c := c) (by omega) (by omega)]
  · rw [toLower_eq_self_of_not_upper h]

theorem toLower_eq_char_of_low {c d : Char} (hd : d.toNat < 65)
    (h : Char.toLower c = d) : c = d := by
  have := congrArg Char.toNat h
  rw [toLower_toNat] at this
  by_cases hc : c.toNat ≥ 65 ∧ c.toNat ≤ 90
  · rw [if_pos hc] at this; omega
  · rw [if_neg hc] at this; exact char_eq_of_toNat_eq this

/-! ### Facts about the `re.sub` scan helpers -/

theorem dropDot_sublist (l : List Char) : (dropDot l).Sublist l := by
  unfold dropDot
  split
  · exact List.sublist_cons_self '.' _
  · exact List.Sublist.refl l

theorem litMatchAt_some_sublist {lit : List Char} {d : Bool} {s rest : List Char}
    (h : litMatchAt lit d s = some rest) : rest.Sublist s := by
  simp only [litMatchAt] at h
  have hsub : ((s.dropWhile isPySpace).drop lit.length).Sublist s :=
    (List.drop_sublist _ _).trans (List.dropWhile_sublist _)
  split at h
  · cases d with
    | false => exact (Option.some.inj h) ▸ hsub
    | true => exact (Option.some.inj h) ▸ (dropDot_sublist _).trans hsub
  · cases h

theorem litMatchAt_some_length {lit : List Char} {d : Bool} {s rest : List Char}
    (hne : lit ≠ []) (h : litMatchAt lit d s = some rest) :
    rest.length < s.length := by
  simp only [litMatchAt] at h
  split at h
  · rename_i hpre
    have hlen : lit.length ≤ (s.dropWhile isPySpace).length := by
      rcases isPrefixOf_iff_exists.mp hpre with ⟨r, hr⟩
      rw [hr]; simp
    have hd : (s.dropWhile isPySpace).length ≤ s.length :=
      (List.dropWhile_sublist _).length_le
    have hlit : 1 ≤ lit.length := by
      cases lit with
      | nil => exact absurd rfl hne
      | cons a l => simp
    have hdrop : ((s.dropWhile isPySpace).drop lit.length).length =
        (s.dropWhile isPySpace).length - lit.length := by simp
    have hrest : rest.length ≤ ((s.dropWhile isPySpace).drop lit.length).length := by
      cases d with
      | false =>
        simp only [Bool.false_eq_true, if_false] at h
        rw [← Option.some.inj h]
      | true =>
        simp only [if_true] at h
        rw [← Option.some.inj h]
        exact (dropDot_sublist _).length_le
    omega
  · cases h

theorem litMatchAt_some_contains {lit : List Char} {d : Bool} {s rest : List Char}
    (h : litMatchAt lit d s = some rest) : containsSub lit s = true := by
  simp only [litMatchAt] at h
  split at h
  · rename_i hpre
    rcases isPrefixOf_iff_exists.mp hpre with ⟨r, hr⟩
    refine containsSub_iff.mpr ⟨s.takeWhile isPySpace, r, ?_⟩
    conv_lhs => rw [← List.takeWhile_append_dropWhile isPySpace s, hr]
    rw [List.append_assoc]
  · cases h

theorem litMatchAt_none_of_not_contains {lit : List Char} {d : Bool} {s : List Char}
    (h : containsSub lit s = false) : litMatchAt lit d s = none := by
  cases hm : litMatchAt lit d s with
  | none => rfl
  | some rest => rw [litMatchAt_some_contains hm] at h; cases h

theorem reSubLitFuel_sublist (lit : List Char) (d : Bool) :
    ∀ fuel s, (reSubLitFuel lit d fuel s).Sublist s := by
  intro fuel
  induction fuel with
  | zero => intro s; cases s <;> exact List.Sublist.refl _
  | succ fuel ih =>
    intro s
    cases s with
    | nil => exact List.Sublist.refl _
    | cons c cs =>
      rw [reSubLitFuel]
      cases hm : litMatchAt lit d (c :: cs) with
      | some rest => exact (ih rest).trans (litMatchAt_some_sublist hm)
      | none => exact (ih cs).cons₂ c

theorem reSubLitFuel_id {lit : List Char} {d : Bool} :
    ∀ fuel {s}, containsSub lit s = false → reSubLitFuel lit d fuel s = s := by
  intro fuel
  induction fuel with
  | zero => intro s _; cases s <;> rfl
  | succ fuel ih =>
    intro s hs
    cases s with
    | nil => rfl
    | cons c cs =>
      rw [reSubLitFuel, litMatchAt_none_of_not_contains hs]
      have hcs : containsSub lit cs = false := by
        have := congrArg (fun b => b) hs
        rw [containsSub] at hs
        exact (Bool.or_eq_false_iff.mp hs).2
      rw [ih hcs]

theorem reSubLit_id {lit : List Char} {d : Bool} {s : List Char}
    (h : containsSub lit s = false) : reSubLit lit d s = s :=
  reSubLitFuel_id _ h

theorem containsSub_false_of_missing_char {lit s : List Char} {u : Char}
    (hu : u ∈ lit) (hs : u ∉ s) : containsSub lit s = false := by
  cases hc : containsSub lit s with
  | false => rfl
  | true =>
    rcases containsSub_iff.mp hc with ⟨l, r, rfl⟩
    exact absurd (by simp [hu] : u ∈ l ++ lit ++ r) hs

theorem parenMatchAt_some_pair {s rest : List Char}
    (h : parenMatchAt s = some rest) : ['(', ')'].Sublist s := by
  unfold parenMatchAt at h
  split at h
  · rename_i r hdw
    split at h
    · rename_i r2 hdw2
      have hrmem : ')' ∈ r := by
        have : ')' ∈ r.dropWhile (fun c => c != ')') := by
          rw [hdw2]; exact List.mem_cons_self _ _
        exact (List.dropWhile_sublist _).subset this
      have h1 : ['(', ')'].Sublist ('(' :: r) :=
        (List.singleton_sublist.mpr hrmem).cons₂ '('
      have h2 : ('(' :: r).Sublist s := by
        rw [← hdw]; exact List.dropWhile_sublist _
      exact h1.trans h2
    · cases h
  · cases h

theorem parenMatchAt_some_length {s rest : List Char}
    (h : parenMatchAt s = some rest) : rest.length + 2 ≤ s.length := by
  unfold parenMatchAt at h
  split at h
  · rename_i r hdw
    split at h
    · rename_i r2 hdw2
      cases h
      have hr : (r.dropWhile (fun c => c != ')')).length ≤ r.length :=
        (List.dropWhile_sublist _).length_le
      have hs : ('(' :: r).length ≤ s.length := by
        rw [← hdw]; exact (List.dropWhile_sublist _).length_le
      have h2 := congrArg List.length hdw2
      simp only [List.length_cons] at h2 hs hr ⊢
      omega
    · cases h
  · cases h

theorem parenMatchAt_some_sublist {s rest : List Char}
    (h : parenMatchAt s = some rest) : rest.Sublist s := by
  unfold parenMatchAt at h
  split at h
  · rename_i r hdw
    split at h
    · rename_i r2 hdw2
      cases h
      have h1 : rest.Sublist (r.dropWhile (fun c => c != ')')) := by
        rw [hdw2]; exact List.sublist_cons_self _ _
      have h2 : (r.dropWhile (fun c => c != ')')).Sublist ('(' :: r) :=
        (List.dropWhile_sublist _).trans (List.sublist_cons_self _ _)
      have h3 : ('(' :: r).Sublist s := by
        rw [← hdw]; exact List.dropWhile_sublist _
      exact (h1.trans h2).trans h3
    · cases h
  · cases h

theorem parenMatchAt_none_of_noPair {s : List Char}
    (h : ¬ ['(', ')'].Sublist s) : parenMatchAt s = none := by
  cases hm : parenMatchAt s with
  | none => rfl
  | some rest => exact absurd (parenMatchAt_some_pair hm) h

theorem parenSubFuel_id : ∀ (fuel : Nat) {s : List Char},
    ¬ ['(', ')'].Sublist s → parenSubFuel fuel s = s := by
  intro fuel
  induction fuel with
  | zero => intro s _; cases s <;> rfl
  | succ fuel ih =>
    intro s hs
    cases s with
    | nil => rfl
    | cons c cs =>
      have hstep : parenSubFuel (fuel + 1) (c :: cs) =
          (match parenMatchAt (c :: cs) with
           | some rest => parenSubFuel fuel rest
           | none => c :: parenSubFuel fuel cs) := rfl
      rw [hstep, parenMatchAt_none_of_noPair hs]
      have hcs : ¬ ['(', ')'].Sublist cs :=
        fun hc => hs (hc.trans (List.sublist_cons_self c cs))
      rw [ih hcs]

theorem parenSubFuel_sublist : ∀ (fuel : Nat) (s : List Char),
    (parenSubFuel fuel s).Sublist s := by
  intro fuel
  induction fuel with
  | zero => intro s; cases s <;> exact List.Sublist.refl _
  | succ fuel ih =>
    intro s
    cases s with
    | nil => exact List.Sublist.refl _
    | cons c cs =>
      have hstep : parenSubFuel (fuel + 1) (c :: cs) =
          (match parenMatchAt (c :: cs) with
           | some rest => parenSubFuel fuel rest
           | none => c :: parenSubFuel fuel cs) := rfl
      rw [hstep]
      cases hm : parenMatchAt (c :: cs) with
      | some rest => exact (ih rest).trans (parenMatchAt_some_sublist hm)
      | none => exact (ih cs).cons₂ c

theorem pair_cons_cases {c : Char} {X : List Char}
    (h : ['(', ')'].Sublist (c :: X)) :
    ['(', ')'].Sublist X ∨ (c = '(' ∧ [')'].Sublist X) := by
  rcases List.sublist_cons_iff.mp h with h' | ⟨r, hr, hrs⟩
  · exact Or.inl h'
  · rcases List.cons.injEq .. ▸ hr with ⟨hc, hrest⟩
    exact Or.inr ⟨hc.symm, hrest ▸ hrs⟩

theorem parenSubFuel_noPair : ∀ (fuel : Nat) {s : List Char},
    s.length ≤ fuel → ¬ ['(', ')'].Sublist (parenSubFuel fuel s) := by
  intro fuel
  induction fuel with
  | zero =>
    intro s hlen
    have hnil : s = [] := List.eq_nil_of_length_eq_zero (by omega)
    subst hnil
    intro hp
    rw [show parenSubFuel 0 ([] : List Char) = [] from rfl, List.sublist_nil] at hp
    cases hp
  | succ fuel ih =>
    intro s hlen
    cases s with
    | nil =>
      intro hp
      rw [show parenSubFuel (fuel + 1) ([] : List Char) = [] from rfl,
        List.sublist_nil] at hp
      cases hp
    | cons c cs =>
      have hstep : parenSubFuel (fuel + 1) (c :: cs) =
          (match parenMatchAt (c :: cs) with
           | some rest => parenSubFuel fuel rest
           | none => c :: parenSubFuel fuel cs) := rfl
      rw [hstep]
      cases hm : parenMatchAt (c :: cs) with
      | some rest =>
        have hlen2 := parenMatchAt_some_length hm
        simp only [List.length_cons] at hlen hlen2
        exact ih (by omega)
      | none =>
        intro hpair
        rcases pair_cons_cases hpair with hx | ⟨hc, hr⟩
        · simp only [List.length_cons] at hlen
          exact ih (by omega) hx
        · subst hc
          have hrp : ')' ∈ parenSubFuel fuel cs :=
            List.singleton_sublist.mp hr
          have hrcs : ')' ∈ cs := (parenSubFuel_sublist fuel cs).subset hrp
          unfold parenMatchAt at hm
          have hosp : isPySpace '(' = false := by decide
          rw [List.dropWhile_cons, hosp] at hm
          simp only [Bool.false_eq_true, if_false] at hm
          split at hm
          · cases hm
          · rename_i harm
            have hdwnil : cs.dropWhile (fun c => c != ')') = [] := by
              cases hdw : cs.dropWhile (fun c => c != ')') with
              | nil => rfl
              | cons x xs =>
                have hx : (fun c => c != ')') x = false := by
                  have := List.head?_dropWhile_not (fun c => c != ')') cs
                  rw [hdw] at this
                  simpa using this
                have hx' : x = ')' := by simpa using hx
                rw [hx'] at hdw
                exact absurd hdw (harm xs)
            have : ∀ x ∈ cs, (fun c => c != ')') x = true :=
              List.dropWhile_eq_nil_iff.mp hdwnil
            have := this ')' hrcs
            simp at this

/-! ### Whitespace canonicalisation facts -/

/-- After `re.sub(r'\s+', ' ')`: every whitespace character is a plain
`' '` and no two adjacent characters are both whitespace. -/
def spacesCanonical (l : List Char) : Prop :=
  (∀ c ∈ l, isPySpace c = true → c = ' ') ∧
  l.Chain' (fun a b => ¬(isPySpace a = true ∧ isPySpace b = true))

theorem collapseWs_head_space (c : Char) (cs : List Char) :
    ∃ d rest, collapseWs (c :: cs) = d :: rest ∧ isPySpace d = isPySpace c := by
  induction cs generalizing c with
  | nil =>
    by_cases h : isPySpace c = true
    · exact ⟨' ', [], by simp [collapseWs, h], by simp [h]; decide⟩
    · have h' : isPySpace c = false := by simpa using h
      exact ⟨c, [], by simp [collapseWs, h'], rfl⟩
  | cons c' cs ih =>
    by_cases h : isPySpace c = true
    · by_cases h' : isPySpace c' = true
      · rcases ih c' with ⟨d, rest, hd, hsp⟩
        refine ⟨d, rest, ?_, ?_⟩
        · rw [collapseWs, if_pos (by rw [h, h']; rfl)]
          exact hd
        · rw [hsp, h', h]
      · have h'' : isPySpace c' = false := by simpa using h'
        refine ⟨' ', collapseWs (c' :: cs), ?_, ?_⟩
        · rw [collapseWs, if_neg (by rw [h, h'']; simp), if_pos h]
        · rw [h]; decide
    · have h'' : isPySpace c = false := by simpa using h
      refine ⟨c, collapseWs (c' :: cs), ?_, rfl⟩
      rw [collapseWs, if_neg (by rw [h'']; simp), if_neg (by simp [h''])]

theorem collapseWs_cons_cons (c c' : Char) (cs : List Char) :
    collapseWs (c :: c' :: cs) =
      if isPySpace c && isPySpace c' then collapseWs (c' :: cs)
      else (if isPySpace c then ' ' else c) :: collapseWs (c' :: cs) := rfl

theorem collapseWs_single (c : Char) :
    collapseWs [c] = if isPySpace c then [' '] else [c] := rfl

theorem collapseWs_canonical (l : List Char) : spacesCanonical (collapseWs l) := by
  induction l with
  | nil => exact ⟨by simp [collapseWs], by simp [collapseWs]⟩
  | cons c cs ih =>
    cases cs with
    | nil =>
      rw [collapseWs_single]
      by_cases h : isPySpace c = true
      · rw [if_pos h]
        exact ⟨fun x hx _ => List.mem_singleton.mp hx, by simp⟩
      · rw [if_neg h]
        refine ⟨fun x hx hsp => ?_, by simp⟩
        rw [List.mem_singleton.mp hx] at hsp
        exact absurd hsp h
    | cons c' cs' =>
      rw [collapseWs_cons_cons]
      by_cases hcc : isPySpace c = true ∧ isPySpace c' = true
      · rw [if_pos (by rw [hcc.1, hcc.2]; rfl)]
        exact ih
      · have hbool : ¬ ((isPySpace c && isPySpace c') = true) := by
          rw [Bool.and_eq_true]; exact hcc
        rw [if_neg hbool]
        refine ⟨fun x hx hsp => ?_, ?_⟩
        · rcases List.mem_cons.mp hx with rfl | hx'
          · by_cases hc : isPySpace c = true
            · rw [if_pos hc] at hsp ⊢
            · rw [if_neg hc] at hsp
              exact absurd hsp hc
          · exact ih.1 x hx' hsp
        · rw [List.chain'_cons']
          refine ⟨?_, ih.2⟩
          intro y hy
          rcases collapseWs_head_space c' cs' with ⟨d, rest, hd, hsp⟩
          rw [hd] at hy
          have hyd : y = d := (show d = y by simpa using hy).symm
          subst hyd
          rintro ⟨hs1, hs2⟩
          rw [hsp] at hs2
          by_cases hc : isPySpace c = true
          · exact hcc ⟨hc, hs2⟩
          · rw [if_neg hc] at hs1
            exact hc hs1

theorem collapseWs_eq_self_of_canonical {l : List Char}
    (h : spacesCanonical l) : collapseWs l = l := by
  induction l with
  | nil => rfl
  | cons c cs ih =>
    cases cs with
    | nil =>
      rw [collapseWs_single]
      by_cases hc : isPySpace c = true
      · rw [if_pos hc, h.1 c (List.mem_singleton_self c) hc]
      · rw [if_neg hc]
    | cons c' cs' =>
      have hrel : ¬(isPySpace c = true ∧ isPySpace c' = true) :=
        (List.chain'_cons.mp h.2).1
      rw [collapseWs_cons_cons,
        if_neg (by rw [Bool.and_eq_true]; exact hrel)]
      have htail : spacesCanonical (c' :: cs') :=
        ⟨fun x hx => h.1 x (List.mem_cons_of_mem c hx),
         (List.chain'_cons.mp h.2).2⟩
      rw [ih htail]
      by_cases hc : isPySpace c = true
      · rw [if_pos hc, h.1 c (List.mem_cons_self c _) hc]
      · rw [if_neg hc]

theorem filter_cons_of_neg {p : Char → Bool} {c : Char} (l : List Char)
    (h : p c = false) : (c :: l).filter p = l.filter p := by
  simp [List.filter_cons, h]

theorem filter_cons_of_pos {p : Char → Bool} {c : Char} (l : List Char)
    (h : p c = true) : (c :: l).filter p = c :: l.filter p := by
  simp [List.filter_cons, h]

theorem collapseWs_filter_nonspace (l : List Char) :
    (collapseWs l).filter (fun c => !isPySpace c) =
      l.filter (fun c => !isPySpace c) := by
  induction l with
  | nil => rfl
  | cons c cs ih =>
    cases cs with
    | nil =>
      rw [collapseWs_single]
      by_cases hc : isPySpace c = true
      · rw [if_pos hc, filter_cons_of_neg _ (by decide),
          filter_cons_of_neg _ (by rw [hc]; rfl)]
      · rw [if_neg hc]
    | cons c' cs' =>
      rw [collapseWs_cons_cons]
      by_cases hcc : (isPySpace c && isPySpace c') = true
      · rw [if_pos hcc]
        have hc : isPySpace c = true := (Bool.and_eq_true .. ▸ hcc).1
        conv_rhs => rw [filter_cons_of_neg _ (by rw [hc]; rfl)]
        exact ih
      · rw [if_neg hcc]
        by_cases hc : isPySpace c = true
        · rw [if_pos hc, filter_cons_of_neg _ (by decide)]
          conv_rhs => rw [filter_cons_of_neg _ (by rw [hc]; rfl)]
          exact ih
        · have hc' : isPySpace c = false := by simpa using hc
          rw [if_neg hc, filter_cons_of_pos _ (by rw [hc']; rfl), ih]
          conv_rhs => rw [filter_cons_of_pos _ (by rw [hc']; rfl)]

/-! ### `strip` facts -/

theorem dropWhile_dropWhile (p : Char → Bool) (l : List Char) :
    (l.dropWhile p).dropWhile p = l.dropWhile p := by
  induction l with
  | nil => rfl
  | cons c cs ih =>
    by_cases h : p c = true
    · rw [List.dropWhile_cons_of_pos h]
      exact ih
    · have h' : p c = false := by simpa using h
      rw [List.dropWhile_cons_of_neg (by simp [h']),
        List.dropWhile_cons_of_neg (by simp [h'])]

theorem head_dropWhile_false {p : Char → Bool} {l : List Char} {c : Char}
    (h : (l.dropWhile p).head? = some c) : p c = false := by
  have := List.head?_dropWhile_not p l
  rw [h] at this
  simpa using this

theorem dropWhile_eq_self_of_head {p : Char → Bool} {l : List Char}
    (h : ∀ c, l.head? = some c → p c = false) : l.dropWhile p = l := by
  cases l with
  | nil => rfl
  | cons c cs => rw [List.dropWhile_cons_of_neg (by simp [h c rfl])]

theorem pyStrip_sublist (l : List Char) : (pyStrip l).Sublist l := by
  unfold pyStrip
  have h1 : ((l.dropWhile isPySpace).reverse.dropWhile isPySpace) <:+
      (l.dropWhile isPySpace).reverse := List.dropWhile_suffix _
  have h2 : ((l.dropWhile isPySpace).reverse.dropWhile isPySpace).reverse <+:
      (l.dropWhile isPySpace) := by
    rw [← List.reverse_suffix]
    simpa using h1
  exact h2.sublist.trans (List.dropWhile_sublist _)

theorem pyStrip_infixOf (l : List Char) : (pyStrip l) <:+: l := by
  unfold pyStrip
  have h1 : ((l.dropWhile isPySpace).reverse.dropWhile isPySpace) <:+
      (l.dropWhile isPySpace).reverse := List.dropWhile_suffix _
  have h2 : ((l.dropWhile isPySpace).reverse.dropWhile isPySpace).reverse <+:
      (l.dropWhile isPySpace) := by
    rw [← List.reverse_suffix]
    simpa using h1
  exact h2.isInfix.trans (List.dropWhile_suffix isPySpace).isInfix

theorem pyStrip_idem (l : List Char) : pyStrip (pyStrip l) = pyStrip l := by
  set A := l.dropWhile isPySpace with hA
  set B := A.reverse.dropWhile isPySpace with hB
  have hl' : pyStrip l = B.reverse := rfl
  rw [hl']
  have hstep1 : B.reverse.dropWhile isPySpace = B.reverse := by
    apply dropWhile_eq_self_of_head
    intro c hc
    rw [List.head?_reverse] at hc
    cases hBnil : B with
    | nil => rw [hBnil] at hc; cases hc
    | cons b bs =>
      have hsuf : B <:+ A.reverse := hB ▸ List.dropWhile_suffix _
      rcases hsuf with ⟨t, ht⟩
      have hlast : A.reverse.getLast? = B.getLast? := by
        rw [← ht, List.getLast?_append]
        have : B.getLast? ≠ none := by
          rw [hBnil]
          simp [List.getLast?_cons]
        cases hBl : B.getLast? with
        | none => exact absurd hBl this
        | some x => simp
      rw [← hlast, List.getLast?_reverse] at hc
      exact head_dropWhile_false hc
  show ((B.reverse.dropWhile isPySpace).reverse.dropWhile isPySpace).reverse = B.reverse
  rw [hstep1, List.reverse_reverse, hB, dropWhile_dropWhile, ← hB]

theorem chain'_of_infix {R : Char → Char → Prop} {l₁ l₂ : List Char}
    (h : l₁ <:+: l₂) (hc : l₂.Chain' R) : l₁.Chain' R := by
  rcases h with ⟨s, t, rfl⟩
  have h1 : (s ++ l₁).Chain' R := (List.chain'_append.mp hc).1
  exact (List.chain'_append.mp h1).2.1

theorem pyStrip_map_toLower (l : List Char) :
    pyStrip (l.map Char.toLower) = (pyStrip l).map Char.toLower := by
  have hp : (isPySpace ∘ Char.toLower) = isPySpace := funext isPySpace_toLower
  unfold pyStrip
  rw [List.dropWhile_map, hp, ← List.map_reverse, List.dropWhile_map, hp,
    ← List.map_reverse]

/-! ### Invariants of `normalize_vc_name` output -/

def noUpper (l : List Char) : Prop := ∀ c ∈ l, ¬(65 ≤ c.toNat ∧ c.toNat ≤ 90)

theorem noUpper_map_toLower (l : List Char) : noUpper (l.map Char.toLower) := by
  intro c hc
  rcases List.mem_map.mp hc with ⟨c', -, rfl⟩
  exact toLower_not_upper c'

theorem reSubLit_sublist (lit : List Char) (d : Bool) (s : List Char) :
    (reSubLit lit d s).Sublist s := reSubLitFuel_sublist lit d s.length s

theorem normalize_vc_name_data {x : String} (hx : x ≠ "") :
    (normalize_vc_name x).data =
      ((pyStrip (collapseWs (normalize_presubs x.data))).map Char.toLower) := by
  rw [normalize_vc_name, if_neg hx]

theorem normalize_presubs_noPair (l : List Char) :
    ¬ ['(', ')'].Sublist (normalize_presubs l) := by
  intro hp
  have h1 : (normalize_presubs l).Sublist (parenSub (pyStrip l)) := by
    show (reSubLit "LTD".data true _).Sublist _
    exact (reSubLit_sublist _ _ _).trans ((reSubLit_sublist _ _ _).trans
      ((reSubLit_sublist _ _ _).trans ((reSubLit_sublist _ _ _).trans
      ((reSubLit_sublist _ _ _).trans ((reSubLit_sublist _ _ _).trans
      ((reSubLit_sublist _ _ _).trans ((reSubLit_sublist _ _ _).trans
      ((reSubLit_sublist _ _ _).trans (reSubLit_sublist _ _ _)))))))))
  exact parenSubFuel_noPair _ (le_refl _) (hp.trans h1)

theorem pair_sublist_map_toLower {u : List Char}
    (h : ['(', ')'].Sublist (u.map Char.toLower)) : ['(', ')'].Sublist u := by
  rcases List.sublist_map_iff.mp h with ⟨l', hl', heq⟩
  cases l' with
  | nil => simp at heq
  | cons a t =>
    cases t with
    | nil => simp at heq
    | cons b t2 =>
      cases t2 with
      | cons x xs => simp at heq
      | nil =>
        simp only [List.map_cons, List.map_nil] at heq
        injection heq with ha heq2
        injection heq2 with hb heq3
        have ha' : a = '(' := toLower_eq_char_of_low (by decide) ha.symm
        have hb' : b = ')' := toLower_eq_char_of_low (by decide) hb.symm
        rw [ha', hb'] at hl'
        exact hl'

theorem pair_sublist_collapseWs {l : List Char}
    (h : ['(', ')'].Sublist (collapseWs l)) : ['(', ')'].Sublist l := by
  have h2 := h.filter (fun c => !isPySpace c)
  rw [collapseWs_filter_nonspace] at h2
  have hpf : ['(', ')'].filter (fun c => !isPySpace c) = ['(', ')'] := by decide
  rw [hpf] at h2
  exact h2.trans (List.filter_sublist _)

theorem normalize_noPair (x : String) :
    ¬ ['(', ')'].Sublist (normalize_vc_name x).data := by
  by_cases hx : x = ""
  · subst hx
    intro hp
    rw [show (normalize_vc_name "").data = [] from rfl, List.sublist_nil] at hp
    cases hp
  · rw [normalize_vc_name_data hx]
    intro hp
    have h1 := pair_sublist_map_toLower hp
    have h2 := h1.trans (pyStrip_sublist _)
    have h3 := pair_sublist_collapseWs h2
    exact normalize_presubs_noPair _ h3

theorem normalize_noUpper (x : String) : noUpper (normalize_vc_name x).data := by
  by_cases hx : x = ""
  · subst hx
    intro c hc
    rw [show (normalize_vc_name "").data = [] from rfl] at hc
    cases hc
  · rw [normalize_vc_name_data hx]
    exact noUpper_map_toLower _

set_option maxHeartbeats 1000000 in
theorem normalize_canonical (x : String) :
    spacesCanonical (normalize_vc_name x).data := by
  by_cases hx : x = ""
  · subst hx
    rw [show (normalize_vc_name "").data = [] from rfl]
    exact ⟨fun c hc => absurd hc (List.not_mem_nil c), List.chain'_nil⟩
  · rw [normalize_vc_name_data hx]
    generalize normalize_presubs x.data = T
    have h0 := collapseWs_canonical T
    have h1 : spacesCanonical (pyStrip (collapseWs T)) :=
      ⟨fun c hc => h0.1 c ((pyStrip_sublist _).subset hc),
       chain'_of_infix (pyStrip_infixOf _) h0.2⟩
    refine ⟨?_, ?_⟩
    · intro c hc hsp
      rcases List.mem_map.mp hc with ⟨c', hc', rfl⟩
      have hsp' : isPySpace c' = true := by rw [← isPySpace_toLower]; exact hsp
      rw [h1.1 c' hc' hsp']
      decide
    · rw [List.chain'_map]
      refine List.Chain'.imp ?_ h1.2
      intro a b hr hab
      exact hr ⟨by rw [← isPySpace_toLower a]; exact hab.1,
                by rw [← isPySpace_toLower b]; exact hab.2⟩

/-- C3 (amended): `normalize` is idempotent on every input whose normalized
form contains none of the Japanese legal-entity suffix tokens `株式会社`,
`有限会社`, `合同会社` as a substring.  (Unrestricted idempotence fails:
removing one occurrence of such a token can splice together a new one, as
`normalize("株式株式会社会社") = "株式会社"` while a second pass yields
`""`.  The ASCII suffix tokens cannot resurface because the first pass
lowercases its output while their patterns are case-sensitive.) -/
theorem C3_normalize_idempotent_unless_jp_splice :
    ∀ x : String,
      pyIn "株式会社" (normalize_vc_name x) = false →
      pyIn "有限会社" (normalize_vc_name x) = false →
      pyIn "合同会社" (normalize_vc_name x) = false →
      normalize_vc_name (normalize_vc_name x) = normalize_vc_name x := by
  intro x h1 h2 h3
  by_cases hy : normalize_vc_name x = ""
  · rw [hy]; rfl
  · have hx : x ≠ "" := by
      intro hx0
      exact hy (by rw [hx0]; rfl)
    set y := normalize_vc_name x with hydef
    have hA : pyStrip y.data = y.data := by
      rw [hydef, normalize_vc_name_data hx, pyStrip_map_toLower, pyStrip_idem]
    have hD : y.data.map Char.toLower = y.data := by
      rw [hydef, normalize_vc_name_data hx, List.map_map,
        show Char.toLower ∘ Char.toLower = Char.toLower from funext toLower_idem]
    have hC : collapseWs y.data = y.data :=
      collapseWs_eq_self_of_canonical (normalize_canonical x)
    have hpair : ¬ ['(', ')'].Sublist y.data := normalize_noPair x
    have hupper : noUpper y.data := normalize_noUpper x
    have eP : parenSub y.data = y.data := parenSubFuel_id _ hpair
    have noUp : ∀ (lit : List Char) (u : Char), u ∈ lit →
        65 ≤ u.toNat → u.toNat ≤ 90 → ∀ d, reSubLit lit d y.data = y.data := by
      intro lit u hu hu1 hu2 d
      exact reSubLit_id (containsSub_false_of_missing_char hu
        (fun hmem => hupper u hmem ⟨hu1, hu2⟩))
    have hpre : normalize_presubs y.data = y.data := by
      show reSubLit "LTD".data true (reSubLit "PTE".data true
        (reSubLit "合同会社".data false (reSubLit "有限会社".data false
        (reSubLit "株式会社".data false (reSubLit "Corp".data true
        (reSubLit "Co".data true (reSubLit "Ltd".data true
        (reSubLit "LLC".data false (reSubLit "Inc".data true
        (parenSub (pyStrip y.data))))))))))) = y.data
      rw [hA, eP,
        noUp "Inc".data 'I' (by decide) (by decide) (by decide) true,
        noUp "LLC".data 'L' (by decide) (by decide) (by decide) false,
        noUp "Ltd".data 'L' (by decide) (by decide) (by decide) true,
        noUp "Co".data 'C' (by decide) (by decide) (by decide) true,
        noUp "Corp".data 'C' (by decide) (by decide) (by decide) true,
        reSubLit_id h1, reSubLit_id h2, reSubLit_id h3,
        noUp "PTE".data 'P' (by decide) (by decide) (by decide) true,
        noUp "LTD".data 'L' (by decide) (by decide) (by decide) true]
    rw [normalize_vc_name, if_neg hy, hpre, hC, hA, hD]

/-- C3 witness: the amended idempotence applied to a concrete name whose
normalized form (`"anri"`) contains no Japanese suffix token. -/
theorem C3_normalize_idempotent_witness :
    normalize_vc_name (normalize_vc_name "ANRI Inc.") =
      normalize_vc_name "ANRI Inc." ∧
    normalize_vc_name "ANRI Inc." = "anri" :=
  ⟨C3_normalize_idempotent_unless_jp_splice "ANRI Inc." (by decide) (by decide)
    (by decide), by decide⟩

/-! ### C4: `find_matching_vc` -/

/-- The partial-match test of `find_matching_vc`: one normalized string is a
substring of the other. -/
def related (nt v : String) : Bool :=
  pyIn nt (normalize_vc_name v) || pyIn (normalize_vc_name v) nt

/-- The Jaccard index over the sets of characters of the two normalized
strings: `len(set(a) & set(b)) / len(set(a) | set(b))`. -/
def charJaccard (a b : String) : ℚ :=
  ((a.data.toFinset ∩ b.data.toFinset).card : ℚ) /
    ((a.data.toFinset ∪ b.data.toFinset).card : ℚ)

/-- The score `find_matching_vc` assigns to corpus entry `v`. -/
def cScore (nt v : String) : ℚ := charJaccard nt (normalize_vc_name v)

/-- The scan loop of `find_matching_vc`: exact normalized match returns
immediately; a substring-related entry whose Jaccard score strictly beats
the running best becomes the new best; after the loop the best entry is
returned iff its score exceeds 0.2. -/
def find_matching_vc_aux (nt : String) :
    List String → ℚ → Option String → Option String
  | [], best_score, best_match => if 1/5 < best_score then best_match else none
  | v :: rest, best_score, best_match =>
    if nt = normalize_vc_name v then some v
    else if related nt v then
      if best_score < cScore nt v then
        find_matching_vc_aux nt rest (cScore nt v) (some v)
      else find_matching_vc_aux nt rest best_score best_match
    else find_matching_vc_aux nt rest best_score best_match

/-- `VCPortfolioWithFunding.find_matching_vc` (corpus entries modelled by
their `vc_name` strings; `best_score` starts at 0, `best_match` at `None`). -/
def find_matching_vc (vc_name : String) (vc_list : List String) : Option String :=
  find_matching_vc_aux (normalize_vc_name vc_name) vc_list 0 none

/-- Modelled from the specification's words (section 4.6), for comparison
with `find_matching_vc`: exact normalized equality → the first such entry;
otherwise the best Jaccard-scoring substring-related entry exactly when the
best score exceeds the 0.2 threshold. -/
def match_spec (candidate : String) (corpus : List String) : Option String :=
  let nt := normalize_vc_name candidate
  match corpus.find? (fun v => normalize_vc_name v == nt) with
  | some v => some v
  | none =>
    let cands := corpus.filter (related nt)
    let m := (cands.map (cScore nt)).foldr max 0
    if 1/5 < m then cands.find? (fun v => decide (cScore nt v = m)) else none

/-- The after-the-loop selection applied to the related candidates seen so
far, with a running best. -/
def bestPick (nt : String) (cands : List String) (best : ℚ) (bm : Option String) :
    Option String :=
  let m := (cands.map (cScore nt)).foldr max best
  if 1/5 < m then
    match cands.find? (fun v => decide (best < cScore nt v) && decide (cScore nt v = m)) with
    | some v => some v
    | none => bm
  else none

theorem foldr_max_pull (a b : ℚ) (l : List ℚ) :
    l.foldr max (max a b) = max a (l.foldr max b) := by
  induction l with
  | nil => rfl
  | cons c cl ih => rw [List.foldr_cons, ih, List.foldr_cons, max_left_comm]

theorem le_foldr_max (b : ℚ) (l : List ℚ) : b ≤ l.foldr max b := by
  induction l with
  | nil => exact le_rfl
  | cons c cl ih => exact ih.trans (le_max_right c _)

theorem foldr_max_cases (b : ℚ) (l : List ℚ) :
    l.foldr max b = b ∨ l.foldr max b ∈ l := by
  induction l with
  | nil => exact Or.inl rfl
  | cons c cl ih =>
    rw [List.foldr_cons]
    rcases max_choice c (cl.foldr max b) with h | h
    · rw [h]
      exact Or.inr (List.mem_cons_self c cl)
    · rw [h]
      rcases ih with h' | h'
      · exact Or.inl h'
      · exact Or.inr (List.mem_cons_of_mem c h')

theorem list_find?_congr {p q : String → Bool} :
    ∀ {l : List String}, (∀ x ∈ l, p x = q x) → l.find? p = l.find? q := by
  intro l
  induction l with
  | nil => intro _; rfl
  | cons a as ih =>
    intro h
    rw [List.find?_cons, List.find?_cons, h a (List.mem_cons_self a as)]
    cases q a with
    | true => rfl
    | false => exact ih fun x hx => h x (List.mem_cons_of_mem a hx)

theorem bestPick_cons_improve {nt v : String} {cands : List String} {best : ℚ}
    {bm : Option String} (himp : best < cScore nt v) :
    bestPick nt (v :: cands) best bm = bestPick nt cands (cScore nt v) (some v) := by
  have hm : ((v :: cands).map (cScore nt)).foldr max best =
      (cands.map (cScore nt)).foldr max (cScore nt v) := by
    rw [List.map_cons, List.foldr_cons]
    calc max (cScore nt v) ((cands.map (cScore nt)).foldr max best)
        = (cands.map (cScore nt)).foldr max (max (cScore nt v) best) :=
          (foldr_max_pull _ _ _).symm
      _ = (cands.map (cScore nt)).foldr max (cScore nt v) := by
          rw [max_eq_left (le_of_lt himp)]
  unfold bestPick
  rw [hm]
  by_cases hcond :
      (1/5 : ℚ) < (cands.map (cScore nt)).foldr max (cScore nt v)
  · rw [if_pos hcond, if_pos hcond]
    by_cases htie : cScore nt v = (cands.map (cScore nt)).foldr max (cScore nt v)
    · have hfp := List.find?_cons_of_pos (a := v)
        (p := fun w => decide (best < cScore nt w) &&
          decide (cScore nt w = (cands.map (cScore nt)).foldr max (cScore nt v))) cands
        (show (decide (best < cScore nt v) &&
          decide (cScore nt v = (cands.map (cScore nt)).foldr max (cScore nt v))) = true by
          rw [decide_eq_true himp, decide_eq_true htie]; rfl)
      rw [hfp]
      have hnone : cands.find? (fun w =>
          decide (cScore nt v < cScore nt w) &&
          decide (cScore nt w = (cands.map (cScore nt)).foldr max (cScore nt v))) =
            none := by
        rw [List.find?_eq_none]
        intro w hw hp
        rcases Bool.and_eq_true .. ▸ hp with ⟨hp1, hp2⟩
        have h1 := of_decide_eq_true hp1
        have h2 := of_decide_eq_true hp2
        rw [h2, ← htie] at h1
        exact lt_irrefl _ h1
      rw [hnone]
    · have hlt : cScore nt v < (cands.map (cScore nt)).foldr max (cScore nt v) :=
        lt_of_le_of_ne (le_foldr_max _ _) htie
      have hfn := List.find?_cons_of_neg (a := v)
        (p := fun w => decide (best < cScore nt w) &&
          decide (cScore nt w = (cands.map (cScore nt)).foldr max (cScore nt v))) cands
        (show ¬ (decide (best < cScore nt v) &&
          decide (cScore nt v = (cands.map (cScore nt)).foldr max (cScore nt v))) = true from fun hp =>
          htie (of_decide_eq_true (Bool.and_eq_true .. ▸ hp).2))
      rw [hfn]
      have hcongr := list_find?_congr (l := cands)
        (p := fun w => decide (best < cScore nt w) &&
          decide (cScore nt w = (cands.map (cScore nt)).foldr max (cScore nt v)))
        (q := fun w => decide (cScore nt v < cScore nt w) &&
          decide (cScore nt w = (cands.map (cScore nt)).foldr max (cScore nt v)))
        (fun w _ => by
          show (decide (best < cScore nt w) &&
              decide (cScore nt w = (cands.map (cScore nt)).foldr max (cScore nt v))) =
            (decide (cScore nt v < cScore nt w) &&
              decide (cScore nt w = (cands.map (cScore nt)).foldr max (cScore nt v)))
          by_cases hwm : cScore nt w = (cands.map (cScore nt)).foldr max (cScore nt v)
          · have hbw : best < cScore nt w := by rw [hwm]; exact himp.trans hlt
            have hvw : cScore nt v < cScore nt w := by rw [hwm]; exact hlt
            rw [decide_eq_true hbw, decide_eq_true hvw]
          · rw [decide_eq_false hwm, Bool.and_false, Bool.and_false])
      rw [hcongr]
      have hmem : (cands.map (cScore nt)).foldr max (cScore nt v) ∈
          cands.map (cScore nt) := by
        rcases foldr_max_cases (cScore nt v) (cands.map (cScore nt)) with h | h
        · exact absurd h.symm htie
        · exact h
      rcases List.mem_map.mp hmem with ⟨w, hw, hwm⟩
      have hsome : (cands.find? (fun w =>
          decide (cScore nt v < cScore nt w) &&
          decide (cScore nt w = (cands.map (cScore nt)).foldr max (cScore nt v)))).isSome
            = true := by
        rw [List.find?_isSome]
        refine ⟨w, hw, ?_⟩
        show (decide (cScore nt v < cScore nt w) &&
          decide (cScore nt w = (cands.map (cScore nt)).foldr max (cScore nt v))) = true
        rw [decide_eq_true (show cScore nt v < cScore nt w by rw [hwm]; exact hlt),
          decide_eq_true hwm]
        rfl
      rcases Option.isSome_iff_exists.mp hsome with ⟨u, hu⟩
      rw [hu]
  · rw [if_neg hcond, if_neg hcond]

theorem bestPick_cons_noimprove {nt v : String} {cands : List String} {best : ℚ}
    {bm : Option String} (himp : ¬ best < cScore nt v) :
    bestPick nt (v :: cands) best bm = bestPick nt cands best bm := by
  have hle : cScore nt v ≤ best := le_of_not_lt himp
  have hm : ((v :: cands).map (cScore nt)).foldr max best =
      (cands.map (cScore nt)).foldr max best := by
    rw [List.map_cons, List.foldr_cons,
      max_eq_right (hle.trans (le_foldr_max _ _))]
  unfold bestPick
  rw [hm]
  by_cases hcond : (1/5 : ℚ) < (cands.map (cScore nt)).foldr max best
  · rw [if_pos hcond, if_pos hcond]
    have hfn := List.find?_cons_of_neg (a := v)
      (p := fun w => decide (best < cScore nt w) &&
        decide (cScore nt w = (cands.map (cScore nt)).foldr max best)) cands
      (show ¬ (decide (best < cScore nt v) &&
        decide (cScore nt v = (cands.map (cScore nt)).foldr max best)) = true from
        fun hp => himp (of_decide_eq_true (Bool.and_eq_true .. ▸ hp).1))
    rw [hfn]
  · rw [if_neg hcond, if_neg hcond]

/-- The loop characterised: first exact match, else the best-scoring
related candidate against the running best. -/
def aux_spec (nt : String) (l : List String) (best : ℚ) (bm : Option String) :
    Option String :=
  match l.find? (fun v => normalize_vc_name v == nt) with
  | some v => some v
  | none => bestPick nt (l.filter (related nt)) best bm

theorem find_aux_eq (nt : String) :
    ∀ (l : List String) (best : ℚ) (bm : Option String),
      find_matching_vc_aux nt l best bm = aux_spec nt l best bm := by
  intro l
  induction l with
  | nil => intro best bm; rfl
  | cons v rest ih =>
    intro best bm
    rw [show find_matching_vc_aux nt (v :: rest) best bm =
      (if nt = normalize_vc_name v then some v
       else if related nt v then
         (if best < cScore nt v then
            find_matching_vc_aux nt rest (cScore nt v) (some v)
          else find_matching_vc_aux nt rest best bm)
       else find_matching_vc_aux nt rest best bm) from rfl]
    by_cases hex : nt = normalize_vc_name v
    · rw [if_pos hex]
      unfold aux_spec
      rw [List.find?_cons_of_pos _ (by rw [hex]; exact beq_self_str _)]
    · rw [if_neg hex]
      have hfind : (v :: rest).find? (fun w => normalize_vc_name w == nt) =
          rest.find? (fun w => normalize_vc_name w == nt) :=
        List.find?_cons_of_neg _
          (by simpa using beq_false_of_ne (fun h => hex h.symm))
      by_cases hrel : related nt v = true
      · rw [if_pos hrel]
        by_cases himp : best < cScore nt v
        · rw [if_pos himp, ih (cScore nt v) (some v)]
          unfold aux_spec
          rw [hfind]
          cases hf : rest.find? (fun w => normalize_vc_name w == nt) with
          | some w => rfl
          | none =>
            rw [List.filter_cons_of_pos hrel]
            exact (bestPick_cons_improve himp).symm
        · rw [if_neg himp, ih best bm]
          unfold aux_spec
          rw [hfind]
          cases hf : rest.find? (fun w => normalize_vc_name w == nt) with
          | some w => rfl
          | none =>
            rw [List.filter_cons_of_pos hrel]
            exact (bestPick_cons_noimprove himp).symm
      · rw [if_neg hrel, ih best bm]
        unfold aux_spec
        rw [hfind, List.filter_cons_of_neg (by simpa using hrel)]

/-- C4: the matcher agrees, on every candidate and corpus, with the
specification's description — first entry with equal normalized form when
one exists, otherwise the best character-set-Jaccard-scoring
substring-related entry exactly when that best score exceeds the 0.2
threshold — and the two concrete lookups behave as specified. -/
theorem C4_find_matching_vc_matches_spec :
    (∀ candidate corpus,
      find_matching_vc candidate corpus = match_spec candidate corpus) ∧
    find_matching_vc "ANRI Inc." ["ANRI"] = some "ANRI" ∧
    find_matching_vc "Totally Unrelated Co." ["ANRI"] = none := by
  have hmain : ∀ candidate corpus,
      find_matching_vc candidate corpus = match_spec candidate corpus := by
    intro cand corpus
    rw [find_matching_vc, find_aux_eq]
    simp only [aux_spec, match_spec]
    cases hf : corpus.find?
        (fun v => normalize_vc_name v == normalize_vc_name cand) with
    | some w => rfl
    | none =>
      unfold bestPick
      by_cases hcond : (1/5 : ℚ) <
          ((corpus.filter (related (normalize_vc_name cand))).map
            (cScore (normalize_vc_name cand))).foldr max 0
      · rw [if_pos hcond, if_pos hcond]
        have hcongr := list_find?_congr
          (l := corpus.filter (related (normalize_vc_name cand)))
          (p := fun w => decide ((0 : ℚ) < cScore (normalize_vc_name cand) w) &&
            decide (cScore (normalize_vc_name cand) w =
              ((corpus.filter (related (normalize_vc_name cand))).map
                (cScore (normalize_vc_name cand))).foldr max 0))
          (q := fun w => decide (cScore (normalize_vc_name cand) w =
              ((corpus.filter (related (normalize_vc_name cand))).map
                (cScore (normalize_vc_name cand))).foldr max 0))
          (fun w _ => by
            show (decide ((0 : ℚ) < cScore (normalize_vc_name cand) w) &&
                decide (cScore (normalize_vc_name cand) w =
                  ((corpus.filter (related (normalize_vc_name cand))).map
                    (cScore (normalize_vc_name cand))).foldr max 0)) =
              decide (cScore (normalize_vc_name cand) w =
                  ((corpus.filter (related (normalize_vc_name cand))).map
                    (cScore (normalize_vc_name cand))).foldr max 0)
            by_cases hwm : cScore (normalize_vc_name cand) w =
                ((corpus.filter (related (normalize_vc_name cand))).map
                  (cScore (normalize_vc_name cand))).foldr max 0
            · have h0 : (0 : ℚ) < cScore (normalize_vc_name cand) w := by
                rw [hwm]
                exact lt_trans (by norm_num) hcond
              rw [decide_eq_true h0, Bool.true_and]
            · rw [decide_eq_false hwm, Bool.and_false])
        rw [hcongr]
        cases (corpus.filter (related (normalize_vc_name cand))).find?
            (fun w => decide (cScore (normalize_vc_name cand) w =
              ((corpus.filter (related (normalize_vc_name cand))).map
                (cScore (normalize_vc_name cand))).foldr max 0)) with
        | some u => rfl
        | none => rfl
      · rw [if_neg hcond, if_neg hcond]
  refine ⟨hmain, ?_, ?_⟩
  · rw [hmain]
    simp only [match_spec]
    rw [show ["ANRI"].find? (fun v =>
      normalize_vc_name v == normalize_vc_name "ANRI Inc.") = some "ANRI" from
      by decide]
  · rw [hmain]
    simp only [match_spec]
    rw [show ["ANRI"].find? (fun v =>
        normalize_vc_name v == normalize_vc_name "Totally Unrelated Co.") = none from
        by decide,
      show ["ANRI"].filter (related (normalize_vc_name "Totally Unrelated Co.")) =
        [] from by decide]
    rw [List.map_nil, List.foldr_nil, if_neg (by norm_num)]

/-! ## C6: the free-text period parser

Source: `researchmap_integrated_scraper.py`, `DataExtractor.extract_period`
(lines 208–230): an ordered list of twelve fully-parenthesised regex
patterns; `re.search` finds each pattern's leftmost match, the first
pattern that matches anywhere wins, and `match.group(1).strip()` — the
whole matched span — is returned; with no match the function returns `""`.

The patterns use only literals, `\d` (with counts 4 or 1–2) and `\s*`
followed by a non-whitespace literal, so matching is maximal-munch; the
greedy `\d{1,2}` is expanded into explicit alternatives tried in the
regex engine's backtracking order (2 digits before 1, later slots
backtracking first). -/

inductive PTok where
  | ch (c : Char)
  | digit
  | ws
deriving DecidableEq

/-- Match a token list at the head of `s`; return the rest. -/
def matchToks : List PTok → List Char → Option (List Char)
  | [], s => some s
  | .ch c :: ts, d :: ds => if d = c then matchToks ts ds else none
  | .ch _ :: _, [] => none
  | .digit :: ts, d :: ds => if d.isDigit then matchToks ts ds else none
  | .digit :: _, [] => none
  | .ws :: ts, s => matchToks ts (s.dropWhile isPySpace)

/-- Try the pattern's alternatives at the current position, in
backtracking order; on success return the matched span. -/
def tryVariantsAt (variants : List (List PTok)) (s : List Char) : Option (List Char) :=
  match variants with
  | [] => none
  | v :: vs =>
    match matchToks v s with
    | some rest => some (s.take (s.length - rest.length))
    | none => tryVariantsAt vs s

/-- `re.search`: leftmost position at which some alternative matches. -/
def searchPattern (variants : List (List PTok)) : List Char → Option (List Char)
  | [] => tryVariantsAt variants []
  | c :: cs =>
    match tryVariantsAt variants (c :: cs) with
    | some cap => some cap
    | none => searchPattern variants cs

def plit (s : String) : List PTok := s.data.map PTok.ch

def d4 : List PTok := [.digit, .digit, .digit, .digit]

/-- `\d{4}年\d{1,2}月\s*SEP\s*\d{4}年\d{1,2}月` with the two month slots
instantiated. -/
def p_ym_range (sep : List PTok) (m1 m2 : List PTok) : List PTok :=
  d4 ++ plit "年" ++ m1 ++ plit "月" ++ [.ws] ++ sep ++ [.ws] ++
    d4 ++ plit "年" ++ m2 ++ plit "月"

/-- Backtracking order for two `\d{1,2}` slots. -/
def two_slot (f : List PTok → List PTok → List PTok) : List (List PTok) :=
  [f [.digit, .digit] [.digit, .digit], f [.digit, .digit] [.digit],
   f [.digit] [.digit, .digit], f [.digit] [.digit]]

/-- The twelve patterns of `extract_period`, in source order. -/
def period_patterns : List (List (List PTok)) :=
  [two_slot (p_ym_range (plit "-")),
   two_slot (p_ym_range (plit "～")),
   two_slot (p_ym_range (plit "から")),
   two_slot (fun m1 m2 => d4 ++ plit "." ++ m1 ++ [.ws] ++ plit "-" ++ [.ws] ++
     d4 ++ plit "." ++ m2),
   [d4 ++ plit "-" ++ d4],
   [plit "FY" ++ d4 ++ plit "-FY" ++ d4],
   two_slot (fun m1 m2 => plit "平成" ++ m1 ++ plit "年度" ++ [.ws] ++ plit "-" ++
     [.ws] ++ plit "平成" ++ m2 ++ plit "年度"),
   two_slot (fun m1 m2 => plit "令和" ++ m1 ++ plit "年度" ++ [.ws] ++ plit "-" ++
     [.ws] ++ plit "令和" ++ m2 ++ plit "年度"),
   [d4 ++ plit "年度" ++ [.ws] ++ plit "-" ++ [.ws] ++ d4 ++ plit "年度"],
   [d4 ++ plit "年度から" ++ d4 ++ plit "年度"],
   two_slot (p_ym_range (plit "-")),
   [d4 ++ plit "年" ++ [.ws] ++ plit "-" ++ [.ws] ++ d4 ++ plit "年"]]

/-- The cascade: first pattern with a match wins; its captured group,
stripped, is returned; otherwise `""`. -/
def extract_period_go : List (List (List PTok)) → List Char → String
  | [], _ => ""
  | p :: ps, s =>
    match searchPattern p s with
    | some cap => String.mk (pyStrip cap)
    | none => extract_period_go ps s

/-- `DataExtractor.extract_period`. -/
def extract_period (text : String) : String :=
  extract_period_go period_patterns text.data

theorem extract_period_go_empty {ps : List (List (List PTok))} {s : List Char}
    (h : ∀ p ∈ ps, searchPattern p s = none) : extract_period_go ps s = "" := by
  induction ps with
  | nil => rfl
  | cons p ps ih =>
    rw [show extract_period_go (p :: ps) s =
      (match searchPattern p s with
       | some cap => String.mk (pyStrip cap)
       | none => extract_period_go ps s) from rfl,
      h p (List.mem_cons_self p ps)]
    exact ih fun q hq => h q (List.mem_cons_of_mem p hq)

/-- C6: the period parser is a first-match cascade that never fails — on an
input where no pattern matches anywhere it returns `""`, and the two
concrete behaviours from the specification hold: a Japanese year-month
range is returned verbatim, and date-free text yields `""`. -/
theorem C6_extract_period_cascade :
    (∀ text : String, (∀ p ∈ period_patterns, searchPattern p text.data = none) →
      extract_period text = "") ∧
    extract_period "2023年4月 - 2026年3月" = "2023年4月 - 2026年3月" ∧
    extract_period "no date info here" = "" := by
  refine ⟨fun text h => extract_period_go_empty h, by decide, by decide⟩

/-- C6 witness: the no-match clause applied to the concrete date-free
input. -/
theorem C6_extract_period_witness :
    extract_period "no date info here" = "" :=
  C6_extract_period_cascade.1 "no date info here" (by decide)
